import Mathlib

/-!
Verification of the schema model and type-inference engine of the
brewery data-stream library (src/brewery/ds/base.py, src/brewery/ds/sql_streams.py).

Python modelling conventions used throughout this development:

* A Python string is modelled as a list of characters (`PyStr`); `pstr`
  converts a Lean string literal into this representation.
* A Python value that a record may hold is `PyVal α`: either an opaque
  non-dict value (`atom`, carrying a payload of type `α`) or a dict
  (`dict`, an association list of key/value pairs in insertion order).
  Python dict equality ignores order, so theorems about dict results are
  stated via lookup (`dictGet`) or via `pyDictEq`.
* `d[k] = v` is `dictSet` (updates the first matching key in place,
  otherwise appends), `k in d` / `d.get(k)` is `dictGet`, and
  `d.update(e)` is `dictUpdate`.
* Code that raises an exception is modelled with `Option`: `none` is a
  raised exception.
-/

set_option autoImplicit false

namespace Brewery

/-- A Python string, modelled as its list of characters. -/
abbrev PyStr := List Char

/-- Conversion from a Lean string literal to the `PyStr` model. -/
def pstr (s : String) : PyStr := s.data

/-- A Python value stored in a record: an opaque non-dict value (`atom`)
or a dict represented as an association list in insertion order. -/
inductive PyVal (α : Type) where
  | atom : α → PyVal α
  | dict : List (PyStr × PyVal α) → PyVal α
  deriving Repr

/-- A record: a Python dict with string keys, in insertion order. -/
abbrev PyDict (α : Type) := List (PyStr × PyVal α)

/-- Python `k in d` / first-match lookup in a dict. -/
def dictGet {β : Type} : List (PyStr × β) → PyStr → Option β
  | [], _ => none
  | (k', v) :: rest, k => if k' = k then some v else dictGet rest k

/-- Python `d[k] = v`: replace the value at the first occurrence of `k`,
keeping its position, or append a new entry at the end. -/
def dictSet {β : Type} : List (PyStr × β) → PyStr → β → List (PyStr × β)
  | [], k, v => [(k, v)]
  | (k', v') :: rest, k, v =>
    if k' = k then (k', v) :: rest else (k', v') :: dictSet rest k v

/-- Python `d.update(e)`: set every entry of `e` into `d`, in order. -/
def dictUpdate {β : Type} (d e : List (PyStr × β)) : List (PyStr × β) :=
  e.foldl (fun acc kv => dictSet acc kv.1 kv.2) d

/-- The keys of a dict, in order. -/
def dictKeys {β : Type} (d : List (PyStr × β)) : List PyStr := d.map Prod.fst

/-- Left-biased choice on `Option`, used to state lookup lemmas. -/
def optOr {β : Type} : Option β → Option β → Option β
  | some v, _ => some v
  | none, o => o

example : dictGet [(pstr "a", 1), (pstr "b", 2)] (pstr "b") = some 2 := by decide

example : dictSet [(pstr "a", 1), (pstr "b", 2)] (pstr "a") 7
    = [(pstr "a", 7), (pstr "b", 2)] := by decide

section DictLemmas

variable {β : Type}

@[simp] theorem optOr_some {v : β} {o : Option β} : optOr (some v) o = some v := rfl

@[simp] theorem optOr_none {o : Option β} : optOr none o = o := rfl

@[simp] theorem optOr_none_right {o : Option β} : optOr o none = o := by
  cases o <;> rfl

theorem optOr_assoc (a b c : Option β) : optOr (optOr a b) c = optOr a (optOr b c) := by
  cases a <;> simp

@[simp] theorem dictKeys_nil : dictKeys ([] : List (PyStr × β)) = [] := rfl

@[simp] theorem dictKeys_cons {k : PyStr} {v : β} {d : List (PyStr × β)} :
    dictKeys ((k, v) :: d) = k :: dictKeys d := rfl

@[simp] theorem dictKeys_append {a b : List (PyStr × β)} :
    dictKeys (a ++ b) = dictKeys a ++ dictKeys b := by
  simp [dictKeys]

@[simp] theorem dictGet_nil {k : PyStr} : dictGet ([] : List (PyStr × β)) k = none := rfl

theorem dictGet_cons {k' k : PyStr} {v : β} {d : List (PyStr × β)} :
    dictGet ((k', v) :: d) k = if k' = k then some v else dictGet d k := rfl

theorem dictGet_append (a b : List (PyStr × β)) (k : PyStr) :
    dictGet (a ++ b) k = optOr (dictGet a k) (dictGet b k) := by
  induction a with
  | nil => simp
  | cons kv rest ih =>
    obtain ⟨k', v⟩ := kv
    by_cases h : k' = k <;> simp [dictGet_cons, h, ih]

theorem dictGet_eq_none_iff {d : List (PyStr × β)} {k : PyStr} :
    dictGet d k = none ↔ k ∉ dictKeys d := by
  induction d with
  | nil => simp
  | cons kv rest ih =>
    obtain ⟨k', v⟩ := kv
    by_cases h : k' = k
    · subst h
      simp [dictGet_cons]
    · simp only [dictGet_cons, h, if_false, dictKeys_cons, List.mem_cons, ih]
      constructor
      · rintro hn (h1 | h2)
        · exact h h1.symm
        · exact hn h2
      · intro hn h2
        exact hn (Or.inr h2)

theorem dictGet_mem {d : List (PyStr × β)} {k : PyStr} {v : β}
    (h : dictGet d k = some v) : (k, v) ∈ d := by
  induction d with
  | nil => simp [dictGet] at h
  | cons kv rest ih =>
    obtain ⟨k', v'⟩ := kv
    by_cases hk : k' = k
    · subst hk
      simp [dictGet_cons] at h
      subst h
      exact List.mem_cons_self _ _
    · simp [dictGet_cons, hk] at h
      exact List.mem_cons_of_mem _ (ih h)

theorem dictGet_isSome_of_mem {d : List (PyStr × β)} {k : PyStr} {v : β}
    (h : (k, v) ∈ d) : (dictGet d k).isSome := by
  induction d with
  | nil => simp at h
  | cons kv rest ih =>
    obtain ⟨k', v'⟩ := kv
    rcases List.mem_cons.mp h with h' | h'
    · cases h'
      simp [dictGet_cons]
    · by_cases hk : k' = k <;> simp [dictGet_cons, hk, ih h']

theorem dictGet_eq_of_mem_of_nodup {d : List (PyStr × β)} {k : PyStr} {v : β}
    (hmem : (k, v) ∈ d) (hnodup : (dictKeys d).Nodup) : dictGet d k = some v := by
  induction d with
  | nil => simp at hmem
  | cons kv rest ih =>
    obtain ⟨k', v'⟩ := kv
    simp only [dictKeys_cons, List.nodup_cons] at hnodup
    rcases List.mem_cons.mp hmem with h' | h'
    · cases h'
      simp [dictGet_cons]
    · have hk : k' ≠ k := by
        intro hkk
        apply hnodup.1
        rw [hkk]
        exact List.mem_map.mpr ⟨(k, v), h', rfl⟩
      simp [dictGet_cons, hk, ih h' hnodup.2]

theorem dictGet_eq_dictGet_of_perm {d d' : List (PyStr × β)} {k : PyStr}
    (hperm : d.Perm d') (hnodup : (dictKeys d).Nodup) :
    dictGet d k = dictGet d' k := by
  have hnodup' : (dictKeys d').Nodup := by
    have : (dictKeys d).Perm (dictKeys d') := hperm.map Prod.fst
    exact this.nodup_iff.mp hnodup
  cases h : dictGet d k with
  | none =>
    rw [dictGet_eq_none_iff] at h
    have hgoal : k ∉ dictKeys d' := by
      intro hm
      exact h ((hperm.map Prod.fst).mem_iff.mpr hm)
    exact (dictGet_eq_none_iff.mpr hgoal).symm
  | some v =>
    have hmem : (k, v) ∈ d' := hperm.mem_iff.mp (dictGet_mem h)
    exact (dictGet_eq_of_mem_of_nodup hmem hnodup').symm

@[simp] theorem dictGet_dictSet_self (d : List (PyStr × β)) (k : PyStr) (v : β) :
    dictGet (dictSet d k v) k = some v := by
  induction d with
  | nil => simp [dictSet, dictGet_cons]
  | cons kv rest ih =>
    obtain ⟨k', v'⟩ := kv
    by_cases h : k' = k <;> simp [dictSet, dictGet_cons, h, ih]

theorem dictGet_dictSet_ne (d : List (PyStr × β)) {k k' : PyStr} (v : β) (h : k ≠ k') :
    dictGet (dictSet d k v) k' = dictGet d k' := by
  induction d with
  | nil => simp [dictSet, dictGet_cons, h]
  | cons kv rest ih =>
    obtain ⟨k0, v0⟩ := kv
    by_cases h0 : k0 = k
    · subst h0
      simp [dictSet, dictGet_cons, h]
    · simp [dictSet, dictGet_cons, h0, ih]

theorem dictSet_of_get_none {d : List (PyStr × β)} {k : PyStr} (v : β)
    (h : dictGet d k = none) : dictSet d k v = d ++ [(k, v)] := by
  induction d with
  | nil => simp [dictSet]
  | cons kv rest ih =>
    obtain ⟨k', v'⟩ := kv
    by_cases hk : k' = k
    · simp [dictGet_cons, hk] at h
    · simp [dictGet_cons, hk] at h
      simp [dictSet, hk, ih h]

theorem dictSet_of_get_some {d : List (PyStr × β)} {k : PyStr} {w : β} (v : β)
    (h : dictGet d k = some w) :
    ∃ pre post, d = pre ++ (k, w) :: post ∧ k ∉ dictKeys pre ∧
      dictSet d k v = pre ++ (k, v) :: post := by
  induction d with
  | nil => simp [dictGet] at h
  | cons kv rest ih =>
    obtain ⟨k', v'⟩ := kv
    by_cases hk : k' = k
    · subst hk
      simp [dictGet_cons] at h
      subst h
      exact ⟨[], rest, by simp [dictSet]⟩
    · simp [dictGet_cons, hk] at h
      obtain ⟨pre, post, hd, hpre, hset⟩ := ih h
      refine ⟨(k', v') :: pre, post, by simp [hd], ?_, by simp [dictSet, hk, hset]⟩
      simp [hpre, Ne.symm hk]

theorem dictKeys_dictSet_of_mem {d : List (PyStr × β)} {k : PyStr} (v : β)
    (h : k ∈ dictKeys d) : dictKeys (dictSet d k v) = dictKeys d := by
  induction d with
  | nil => simp at h
  | cons kv rest ih =>
    obtain ⟨k', v'⟩ := kv
    by_cases hk : k' = k
    · simp [dictSet, hk]
    · rcases List.mem_cons.mp h with h1 | h2
      · exact absurd h1.symm hk
      · simp [dictSet, hk, ih h2]

theorem dictKeys_dictSet_of_not_mem {d : List (PyStr × β)} {k : PyStr} (v : β)
    (h : k ∉ dictKeys d) : dictKeys (dictSet d k v) = dictKeys d ++ [k] := by
  rw [dictSet_of_get_none v (dictGet_eq_none_iff.mpr h)]
  simp [dictKeys]

theorem nodup_dictKeys_dictSet {d : List (PyStr × β)} {k : PyStr} {v : β}
    (h : (dictKeys d).Nodup) : (dictKeys (dictSet d k v)).Nodup := by
  by_cases hm : k ∈ dictKeys d
  · rw [dictKeys_dictSet_of_mem v hm]
    exact h
  · rw [dictKeys_dictSet_of_not_mem v hm]
    refine List.Nodup.append h (by simp) ?_
    intro a ha hb
    simp only [List.mem_singleton] at hb
    subst hb
    exact hm ha

theorem nodup_dictKeys_dictUpdate {d e : List (PyStr × β)}
    (h : (dictKeys d).Nodup) : (dictKeys (dictUpdate d e)).Nodup := by
  induction e generalizing d with
  | nil => exact h
  | cons kv rest ih => exact ih (nodup_dictKeys_dictSet h)

theorem dictGet_dictUpdate {e : List (PyStr × β)} (d : List (PyStr × β)) (k : PyStr)
    (hnodup : (dictKeys e).Nodup) :
    dictGet (dictUpdate d e) k = optOr (dictGet e k) (dictGet d k) := by
  induction e generalizing d with
  | nil => simp [dictUpdate]
  | cons kv rest ih =>
    obtain ⟨k0, v0⟩ := kv
    simp only [dictKeys_cons, List.nodup_cons] at hnodup
    have step : dictUpdate d ((k0, v0) :: rest) = dictUpdate (dictSet d k0 v0) rest := rfl
    rw [step, ih (dictSet d k0 v0) hnodup.2]
    by_cases hk : k0 = k
    · subst hk
      have hnone : dictGet rest k0 = none := by
        rw [dictGet_eq_none_iff]
        intro hm
        exact hnodup.1 hm
      simp [hnone, dictGet_cons]
    · simp [dictGet_cons, hk, dictGet_dictSet_ne d v0 hk]

theorem dictUpdate_of_disjoint {d e : List (PyStr × β)}
    (hnodup : (dictKeys e).Nodup) (hdis : ∀ k ∈ dictKeys e, k ∉ dictKeys d) :
    dictUpdate d e = d ++ e := by
  induction e generalizing d with
  | nil => simp [dictUpdate]
  | cons kv rest ih =>
    obtain ⟨k0, v0⟩ := kv
    simp only [dictKeys_cons, List.nodup_cons] at hnodup
    have step : dictUpdate d ((k0, v0) :: rest) = dictUpdate (dictSet d k0 v0) rest := rfl
    have hset : dictSet d k0 v0 = d ++ [(k0, v0)] :=
      dictSet_of_get_none v0 (dictGet_eq_none_iff.mpr (hdis k0 (by simp)))
    have hdis' : ∀ k ∈ dictKeys rest, k ∉ dictKeys (d ++ [(k0, v0)]) := by
      intro k hk
      simp only [dictKeys_append, List.mem_append, dictKeys_cons, dictKeys_nil,
        List.mem_singleton]
      push_neg
      refine ⟨hdis k (by simp [hk]), ?_⟩
      intro hkk
      subst hkk
      exact hnodup.1 hk
    rw [step, hset, ih hnodup.2 hdis', List.append_assoc]
    simp

end DictLemmas

/-! ### Python string split and join

`pySplit sep s` models Python 2 `s.split(sep)` for a non-empty separator:
scan left to right, cut at every (non-overlapping) occurrence of `sep`.
`pyJoin sep` models `sep.join` and is used only to state properties.
The split is written with a fuel argument (`s.length` suffices, which is
proved below) so that it is structurally recursive and computable by the
kernel; `pySplit_eq` recovers the natural recurrence. -/

/-- Find the first occurrence of `sep` in `s`: returns the part of `s`
strictly before the occurrence and the part strictly after it. -/
def splitFirst (sep : PyStr) : PyStr → Option (PyStr × PyStr)
  | [] => none
  | c :: rest =>
    if sep.isPrefixOf (c :: rest) then some ([], (c :: rest).drop sep.length)
    else (splitFirst sep rest).map (fun ba => (c :: ba.1, ba.2))

/-- Fueled splitting loop; with fuel at least `s.length` this computes the
Python split of `s` on `sep`. -/
def pySplitF (sep : PyStr) : Nat → PyStr → List PyStr
  | 0, s => [s]
  | fuel + 1, s =>
    match splitFirst sep s with
    | none => [s]
    | some (b, a) => b :: pySplitF sep fuel a

/-- Python `s.split(sep)` for a non-empty separator `sep`. -/
def pySplit (sep s : PyStr) : List PyStr := pySplitF sep s.length s

/-- Python `sep.join(parts)`; used to state round-trip properties. -/
def pyJoin (sep : PyStr) : List PyStr → PyStr
  | [] => []
  | [x] => x
  | x :: y :: rest => x ++ sep ++ pyJoin sep (y :: rest)

example : pySplit (pstr ".") (pstr "a.b.c") = [pstr "a", pstr "b", pstr "c"] := by decide

example : pySplit (pstr ".") (pstr "") = [pstr ""] := by decide

example : pySplit (pstr ".") (pstr ".a.") = [pstr "", pstr "a", pstr ""] := by decide

example : pyJoin (pstr ".") [pstr "a", pstr "", pstr "c"] = pstr "a..c" := by decide

section SplitLemmas

theorem splitFirst_spec {sep s b a : PyStr} (h : splitFirst sep s = some (b, a)) :
    s = b ++ sep ++ a := by
  induction s generalizing b a with
  | nil => simp [splitFirst] at h
  | cons c rest ih =>
    by_cases hp : sep.isPrefixOf (c :: rest)
    · simp only [splitFirst, hp, if_true, Option.some.injEq, Prod.mk.injEq] at h
      obtain ⟨hb, ha⟩ := h
      subst hb
      subst ha
      have hpre : sep <+: c :: rest := by
        rw [← List.isPrefixOf_iff_prefix]
        exact hp
      obtain ⟨t, ht⟩ := hpre
      conv_lhs => rw [← ht]
      simp [← ht]
    · cases hrec : splitFirst sep rest with
      | none => simp [splitFirst, hp, hrec] at h
      | some ba' =>
        obtain ⟨b', a'⟩ := ba'
        simp [splitFirst, hp, hrec] at h
        obtain ⟨hb, ha⟩ := h
        subst hb
        subst ha
        simp [ih hrec]

theorem splitFirst_length {sep s b a : PyStr} (hsep : sep ≠ [])
    (h : splitFirst sep s = some (b, a)) : a.length < s.length := by
  have hs := splitFirst_spec h
  have : s.length = b.length + sep.length + a.length := by
    rw [hs]
    simp only [List.length_append]
  have hsl : 1 ≤ sep.length := by
    cases sep with
    | nil => exact absurd rfl hsep
    | cons c cs => simp
  omega

theorem pySplitF_fuel {sep : PyStr} (hsep : sep ≠ []) :
    ∀ fuel s, s.length ≤ fuel → pySplitF sep fuel s = pySplitF sep s.length s := by
  intro fuel
  induction fuel using Nat.strong_induction_on with
  | _ n ih =>
    intro s hs
    cases n with
    | zero =>
      have h0 : s.length = 0 := Nat.le_zero.mp hs
      rw [h0]
    | succ n' =>
      cases hlen : s.length with
      | zero =>
        have hnil : s = [] := List.length_eq_zero.mp hlen
        subst hnil
        simp [pySplitF, splitFirst]
      | succ m =>
        cases hsf : splitFirst sep s with
        | none => simp [pySplitF, hsf]
        | some ba =>
          obtain ⟨b, a⟩ := ba
          have hlt : a.length < s.length := splitFirst_length hsep hsf
          rw [hlen] at hlt
          rw [hlen] at hs
          simp only [pySplitF, hsf]
          rw [ih n' (by omega) a (by omega), ih m (by omega) a (by omega)]

theorem pySplit_eq (sep s : PyStr) (hsep : sep ≠ []) :
    pySplit sep s = match splitFirst sep s with
      | none => [s]
      | some (b, a) => b :: pySplit sep a := by
  cases hsf : splitFirst sep s with
  | none =>
    cases hlen : s.length with
    | zero => simp [pySplit, hlen, pySplitF]
    | succ m => simp [pySplit, hlen, pySplitF, hsf]
  | some ba =>
    obtain ⟨b, a⟩ := ba
    have hlt : a.length < s.length := splitFirst_length hsep hsf
    cases hlen : s.length with
    | zero => omega
    | succ m =>
      simp only [pySplit, hlen, pySplitF, hsf]
      rw [hlen] at hlt
      rw [pySplitF_fuel hsep m a (by omega)]

theorem pySplit_ne_nil (sep s : PyStr) : pySplit sep s ≠ [] := by
  show pySplitF sep s.length s ≠ []
  cases hlen : s.length with
  | zero => simp [pySplitF]
  | succ m =>
    cases hsf : splitFirst sep s with
    | none => simp [pySplitF, hsf]
    | some ba =>
      obtain ⟨b, a⟩ := ba
      simp [pySplitF, hsf]

theorem pyJoin_cons (sep x y : PyStr) (rest : List PyStr) :
    pyJoin sep (x :: y :: rest) = x ++ sep ++ pyJoin sep (y :: rest) := rfl

theorem pyJoin_pySplit_aux {sep : PyStr} (hsep : sep ≠ []) :
    ∀ n s, s.length ≤ n → pyJoin sep (pySplit sep s) = s := by
  intro n
  induction n using Nat.strong_induction_on with
  | _ n ih =>
    intro s hs
    cases hsf : splitFirst sep s with
    | none =>
      have hred : pySplit sep s = [s] := by simp [pySplit_eq sep s hsep, hsf]
      simp [hred, pyJoin]
    | some ba =>
      obtain ⟨b, a⟩ := ba
      have hred : pySplit sep s = b :: pySplit sep a := by
        simp [pySplit_eq sep s hsep, hsf]
      have hlt : a.length < s.length := splitFirst_length hsep hsf
      cases hsplit : pySplit sep a with
      | nil => exact absurd hsplit (pySplit_ne_nil sep a)
      | cons z zs =>
        have hjoin : pyJoin sep (pySplit sep a) = a := by
          cases n with
          | zero => omega
          | succ n' => exact ih n' (by omega) a (by omega)
        rw [hsplit] at hjoin
        rw [hred, hsplit, pyJoin_cons, hjoin]
        exact (splitFirst_spec hsf).symm

/-- Joining the parts of a Python split recovers the original string. -/
theorem pyJoin_pySplit {sep : PyStr} (hsep : sep ≠ []) (s : PyStr) :
    pyJoin sep (pySplit sep s) = s :=
  pyJoin_pySplit_aux hsep s.length s le_rfl

theorem pySplit_injective {sep s t : PyStr} (hsep : sep ≠ [])
    (h : pySplit sep s = pySplit sep t) : s = t := by
  have hs := pyJoin_pySplit hsep s
  have ht := pyJoin_pySplit hsep t
  rw [← hs, ← ht, h]

end SplitLemmas

/-! ### The record path transform (expand_record / collapse_record)

Models of `expand_record` and `collapse_record` from
src/brewery/ds/base.py.  Records are Python dicts (`PyDict α`).
`expand_record` mutates nested dicts through the `current` reference; here
that in-place navigation is expressed by `insertPath`, which rebuilds the
dict along the visited path.  A raised `TypeError` (walking into or
assigning into a non-dict value) is modelled as `none`. -/

section RecordTransform

variable {α : Type}

/-- One iteration of the `expand_record` loop: walk `path[:-1]` from the
top of `current`, creating empty dicts for missing parts, then set the
leaf `current[path[-1]] = value`.  Descending into a non-dict value (or
assigning into one) raises in Python; that is the `none` result. -/
def insertPath : PyDict α → List PyStr → PyVal α → Option (PyDict α)
  | _, [], _ => none
  | current, [last], v => some (dictSet current last v)
  | current, part :: rest, v =>
    match dictGet current part with
    | none => (insertPath [] rest v).map (fun sub => dictSet current part (PyVal.dict sub))
    | some (PyVal.dict sub) =>
      (insertPath sub rest v).map (fun sub' => dictSet current part (PyVal.dict sub'))
    | some (PyVal.atom _) => none

/-- `expand_record(record, separator)` from src/brewery/ds/base.py. -/
def expand_record (record : PyDict α) (sep : PyStr) : Option (PyDict α) :=
  record.foldlM (fun result kv => insertPath result (pySplit sep kv.1) kv.2) []

/-- `collapsed_key = root + separator + key if root else key`; note that
Python treats both `None` and the empty string as a falsy `root`. -/
def renderKey (sep : PyStr) (root : Option PyStr) (key : PyStr) : PyStr :=
  match root with
  | some r => if r = [] then key else r ++ sep ++ key
  | none => key

/-- The `collapse_record` loop with its `result` accumulator: one entry is
either a non-dict value (`result[collapsed_key] = value`) or a dict, whose
recursive collapse (built from a fresh `{}`) is merged into `result` by
`dict.update`. -/
def collapseGo (sep : PyStr) : PyDict α → Option PyStr → PyDict α → PyDict α
  | [], _, result => result
  | (key, PyVal.atom a) :: rest, root, result =>
    collapseGo sep rest root (dictSet result (renderKey sep root key) (PyVal.atom a))
  | (key, PyVal.dict sub) :: rest, root, result =>
    collapseGo sep rest root
      (dictUpdate result (collapseGo sep sub (some (renderKey sep root key)) []))
termination_by entries _ _ => sizeOf entries

/-- `collapse_record(record, separator, root)` from src/brewery/ds/base.py. -/
def collapse_record (record : PyDict α) (sep : PyStr) (root : Option PyStr) : PyDict α :=
  collapseGo sep record root []

/-- Python dict equality (`==`) between two modelled dicts: same keys and
the same value at every key, ignoring insertion order. -/
def pyDictEq (a b : PyDict α) : Prop :=
  (∀ kv ∈ a, dictGet b kv.1 = some kv.2) ∧ (∀ kv ∈ b, dictGet a kv.1 = some kv.2)

end RecordTransform

/-! ### Proof infrastructure: the leaves of a nested record

`leaves t` lists, in traversal order, the path and value of every non-dict
value reachable in the nested record `t`.  `wfTree` is the structural
invariant of every dict built by `expand_record`: no empty key segments
and no empty sub-dicts. -/

section Leaves

variable {α : Type}

/-- All (path, non-dict value) pairs of a nested record, in order. -/
def leaves : PyDict α → List (List PyStr × PyVal α)
  | [] => []
  | (k, PyVal.atom a) :: rest => ([k], PyVal.atom a) :: leaves rest
  | (k, PyVal.dict sub) :: rest =>
    (leaves sub).map (fun pv => (k :: pv.1, pv.2)) ++ leaves rest
termination_by entries => sizeOf entries

/-- Paths of all non-dict values of a nested record. -/
def atomPaths (t : PyDict α) : List (List PyStr) := (leaves t).map Prod.fst

/-- Structural invariant of dicts built by `expand_record`: keys are
non-empty strings and dict values are non-empty well-formed dicts. -/
def wfTree : PyDict α → Prop
  | [] => True
  | (k, PyVal.atom _) :: rest => k ≠ [] ∧ wfTree rest
  | (k, PyVal.dict sub) :: rest => k ≠ [] ∧ sub ≠ [] ∧ wfTree sub ∧ wfTree rest
termination_by entries => sizeOf entries

@[simp] theorem leaves_nil : leaves ([] : PyDict α) = [] := by simp [leaves]

@[simp] theorem leaves_cons_atom {k : PyStr} {a : α} {rest : PyDict α} :
    leaves ((k, PyVal.atom a) :: rest) = ([k], PyVal.atom a) :: leaves rest := by
  simp [leaves]

@[simp] theorem leaves_cons_dict {k : PyStr} {sub rest : PyDict α} :
    leaves ((k, PyVal.dict sub) :: rest)
      = (leaves sub).map (fun pv => (k :: pv.1, pv.2)) ++ leaves rest := by
  simp [leaves]

theorem leaves_append (t₁ t₂ : PyDict α) :
    leaves (t₁ ++ t₂) = leaves t₁ ++ leaves t₂ := by
  induction t₁ with
  | nil => simp
  | cons kv rest ih =>
    obtain ⟨k, v⟩ := kv
    cases v with
    | atom a => simp [ih]
    | dict sub => simp [ih]

@[simp] theorem wfTree_nil : wfTree ([] : PyDict α) := by simp [wfTree]

@[simp] theorem wfTree_cons_atom {k : PyStr} {a : α} {rest : PyDict α} :
    wfTree ((k, PyVal.atom a) :: rest) ↔ k ≠ [] ∧ wfTree rest := by
  simp [wfTree]

@[simp] theorem wfTree_cons_dict {k : PyStr} {sub rest : PyDict α} :
    wfTree ((k, PyVal.dict sub) :: rest)
      ↔ k ≠ [] ∧ sub ≠ [] ∧ wfTree sub ∧ wfTree rest := by
  simp [wfTree]

theorem wfTree_append {t₁ t₂ : PyDict α} :
    wfTree (t₁ ++ t₂) ↔ wfTree t₁ ∧ wfTree t₂ := by
  induction t₁ with
  | nil => simp
  | cons kv rest ih =>
    obtain ⟨k, v⟩ := kv
    cases v with
    | atom a =>
      simp only [List.cons_append, wfTree_cons_atom, ih]
      tauto
    | dict sub =>
      simp only [List.cons_append, wfTree_cons_dict, ih]
      tauto

theorem mem_leaves_of_mem_atom {t : PyDict α} {k : PyStr} {a : α}
    (h : (k, PyVal.atom a) ∈ t) : ([k], PyVal.atom a) ∈ leaves t := by
  induction t with
  | nil => simp at h
  | cons kv rest ih =>
    obtain ⟨k', v'⟩ := kv
    rcases List.mem_cons.mp h with h1 | h2
    · cases h1
      simp
    · cases v' with
      | atom a' =>
        simp only [leaves_cons_atom, List.mem_cons]
        exact Or.inr (ih h2)
      | dict sub =>
        simp only [leaves_cons_dict, List.mem_append]
        exact Or.inr (ih h2)

theorem mem_leaves_of_mem_dict {t : PyDict α} {k : PyStr} {sub : PyDict α}
    (h : (k, PyVal.dict sub) ∈ t) {pv : List PyStr × PyVal α} (hpv : pv ∈ leaves sub) :
    (k :: pv.1, pv.2) ∈ leaves t := by
  induction t with
  | nil => simp at h
  | cons kv rest ih =>
    obtain ⟨k', v'⟩ := kv
    rcases List.mem_cons.mp h with h1 | h2
    · cases h1
      simp only [leaves_cons_dict, List.mem_append]
      exact Or.inl (List.mem_map.mpr ⟨pv, hpv, rfl⟩)
    · cases v' with
      | atom a' =>
        simp only [leaves_cons_atom, List.mem_cons]
        exact Or.inr (ih h2)
      | dict sub' =>
        simp only [leaves_cons_dict, List.mem_append]
        exact Or.inr (ih h2)

theorem leaves_path_ne_nil {t : PyDict α} {pv : List PyStr × PyVal α}
    (h : pv ∈ leaves t) : pv.1 ≠ [] := by
  induction t with
  | nil => simp at h
  | cons kv rest ih =>
    obtain ⟨k, v⟩ := kv
    cases v with
    | atom a =>
      simp only [leaves_cons_atom, List.mem_cons] at h
      rcases h with h1 | h2
      · subst h1
        simp
      · exact ih h2
    | dict sub =>
      simp only [leaves_cons_dict, List.mem_append] at h
      rcases h with h1 | h2
      · obtain ⟨pv', _, hpv'⟩ := List.mem_map.mp h1
        subst hpv'
        simp
      · exact ih h2

theorem leaves_ne_nil_of_wf : ∀ t : PyDict α, wfTree t → t ≠ [] → leaves t ≠ [] := by
  intro t
  induction t using leaves.induct with
  | case1 => intro _ h; exact absurd rfl h
  | case2 k a rest ih => intro _ _; simp
  | case3 k sub rest ihsub ihrest =>
    intro hwf _
    rw [wfTree_cons_dict] at hwf
    have hsub := ihsub hwf.2.2.1 hwf.2.1
    simp only [leaves_cons_dict, ne_eq, List.append_eq_nil, not_and]
    intro hmap
    rw [List.map_eq_nil_iff] at hmap
    exact absurd hmap hsub

theorem leaves_value_isAtom_all :
    ∀ t : PyDict α, ∀ pv ∈ leaves t, ∃ a, pv.2 = PyVal.atom a := by
  intro t
  induction t using leaves.induct with
  | case1 => simp
  | case2 k a rest ih =>
    intro pv h
    simp only [leaves_cons_atom, List.mem_cons] at h
    rcases h with h1 | h2
    · subst h1
      exact ⟨a, rfl⟩
    · exact ih pv h2
  | case3 k sub rest ihsub ihrest =>
    intro pv h
    simp only [leaves_cons_dict, List.mem_append] at h
    rcases h with h1 | h2
    · obtain ⟨pv', hpv', hmap⟩ := List.mem_map.mp h1
      subst hmap
      exact ihsub pv' hpv'
    · exact ihrest pv h2

theorem leaves_value_isAtom {t : PyDict α} {pv : List PyStr × PyVal α}
    (h : pv ∈ leaves t) : ∃ a, pv.2 = PyVal.atom a :=
  leaves_value_isAtom_all t pv h

theorem leaves_segments_ne_nil_all :
    ∀ t : PyDict α, wfTree t → ∀ pv ∈ leaves t, ∀ s ∈ pv.1, s ≠ [] := by
  intro t
  induction t using leaves.induct with
  | case1 => simp
  | case2 k a rest ih =>
    intro hwf pv h
    rw [wfTree_cons_atom] at hwf
    simp only [leaves_cons_atom, List.mem_cons] at h
    rcases h with h1 | h2
    · subst h1
      intro s hs
      simp only [List.mem_singleton] at hs
      subst hs
      exact hwf.1
    · exact ih hwf.2 pv h2
  | case3 k sub rest ihsub ihrest =>
    intro hwf pv h
    rw [wfTree_cons_dict] at hwf
    simp only [leaves_cons_dict, List.mem_append] at h
    rcases h with h1 | h2
    · obtain ⟨pv', hpv', hmap⟩ := List.mem_map.mp h1
      subst hmap
      intro s hs
      simp only [List.mem_cons] at hs
      rcases hs with hs1 | hs2
      · subst hs1
        exact hwf.1
      · exact ihsub hwf.2.2.1 pv' hpv' s hs2
    · exact ihrest hwf.2.2.2 pv h2

theorem leaves_segments_ne_nil {t : PyDict α} (hwf : wfTree t)
    {pv : List PyStr × PyVal α} (h : pv ∈ leaves t) : ∀ s ∈ pv.1, s ≠ [] :=
  leaves_segments_ne_nil_all t hwf pv h

end Leaves

/-! ### Extensional description of collapse_record

`collapse_record` produces, for each leaf of the nested record, one entry
whose key is the separator-joined path from the root; later writes win.
`renderPath` is the key the incremental `collapsed_key` construction
produces for a whole path; `lastGet` is last-occurrence lookup. -/

section CollapseSpec

variable {α : Type}

/-- The key the `collapsed_key` chain produces along a whole path. -/
def renderPath (sep : PyStr) : Option PyStr → List PyStr → PyStr
  | root, [] =>
    match root with
    | some r => r
    | none => []
  | root, k :: rest => renderPath sep (some (renderKey sep root k)) rest

/-- Last-occurrence lookup in an association list. -/
def lastGet {β : Type} : List (PyStr × β) → PyStr → Option β
  | [], _ => none
  | (k', v) :: rest, k => optOr (lastGet rest k) (if k' = k then some v else none)

/-- The flat entries `collapse_record` writes for the leaves of `t`, in
write order, when called with prefix `root`. -/
def renderLeaves (sep : PyStr) (root : Option PyStr) (t : PyDict α) :
    List (PyStr × PyVal α) :=
  (leaves t).map (fun pv => (renderPath sep root pv.1, pv.2))

@[simp] theorem lastGet_nil {β : Type} {k : PyStr} : lastGet ([] : List (PyStr × β)) k = none :=
  rfl

theorem lastGet_cons {β : Type} {k' k : PyStr} {v : β} {rest : List (PyStr × β)} :
    lastGet ((k', v) :: rest) k = optOr (lastGet rest k) (if k' = k then some v else none) :=
  rfl

theorem lastGet_append {β : Type} (a b : List (PyStr × β)) (k : PyStr) :
    lastGet (a ++ b) k = optOr (lastGet b k) (lastGet a k) := by
  induction a with
  | nil => cases h : lastGet b k <;> simp [h]
  | cons kv rest ih =>
    obtain ⟨k', v⟩ := kv
    simp only [List.cons_append, lastGet_cons, ih, optOr_assoc]

theorem lastGet_eq_dictGet_of_nodup {β : Type} {l : List (PyStr × β)}
    (h : (dictKeys l).Nodup) (k : PyStr) : lastGet l k = dictGet l k := by
  induction l with
  | nil => rfl
  | cons kv rest ih =>
    obtain ⟨k', v⟩ := kv
    simp only [dictKeys_cons, List.nodup_cons] at h
    rw [lastGet_cons, dictGet_cons, ih h.2]
    by_cases hk : k' = k
    · subst hk
      have : dictGet rest k' = none := dictGet_eq_none_iff.mpr h.1
      simp [this]
    · simp only [hk, if_false]
      cases dictGet rest k <;> simp

@[simp] theorem renderLeaves_nil {sep : PyStr} {root : Option PyStr} :
    renderLeaves sep root ([] : PyDict α) = [] := by
  simp [renderLeaves]

theorem renderLeaves_cons_atom {sep : PyStr} {root : Option PyStr} {k : PyStr} {a : α}
    {rest : PyDict α} :
    renderLeaves sep root ((k, PyVal.atom a) :: rest)
      = (renderKey sep root k, PyVal.atom a) :: renderLeaves sep root rest := by
  simp [renderLeaves]
  rfl

theorem renderLeaves_cons_dict {sep : PyStr} {root : Option PyStr} {k : PyStr}
    {sub rest : PyDict α} :
    renderLeaves sep root ((k, PyVal.dict sub) :: rest)
      = renderLeaves sep (some (renderKey sep root k)) sub ++ renderLeaves sep root rest := by
  simp only [renderLeaves, leaves_cons_dict, List.map_append, List.map_map]
  rfl

theorem nodup_dictKeys_collapseGo (sep : PyStr) (entries : PyDict α)
    (root : Option PyStr) (result : PyDict α) (h : (dictKeys result).Nodup) :
    (dictKeys (collapseGo sep entries root result)).Nodup := by
  induction entries, root, result using collapseGo.induct sep with
  | case1 root result =>
    rw [collapseGo]
    exact h
  | case2 key a rest root result ih =>
    rw [collapseGo]
    exact ih (nodup_dictKeys_dictSet h)
  | case3 key sub rest root result ihsub ihrest =>
    rw [collapseGo]
    exact ihrest (nodup_dictKeys_dictUpdate h)

/-- What `collapse_record`'s loop computes, extensionally: look the key up
among the rendered leaves (last write wins), else in the accumulator. -/
theorem dictGet_collapseGo (sep : PyStr) (entries : PyDict α)
    (root : Option PyStr) (result : PyDict α) (k : PyStr) :
    dictGet (collapseGo sep entries root result) k
      = optOr (lastGet (renderLeaves sep root entries) k) (dictGet result k) := by
  induction entries, root, result using collapseGo.induct sep with
  | case1 root result =>
    rw [collapseGo]
    simp
  | case2 key a rest root result ih =>
    rw [collapseGo, ih, renderLeaves_cons_atom, lastGet_cons, optOr_assoc]
    by_cases hk : renderKey sep root key = k
    · subst hk
      simp [dictGet_dictSet_self]
    · rw [dictGet_dictSet_ne result _ hk]
      simp [hk]
  | case3 key sub rest root result ihsub ihrest =>
    have hfresh : (dictKeys (collapseGo sep sub (some (renderKey sep root key)) [])).Nodup :=
      nodup_dictKeys_collapseGo sep sub _ [] (by simp)
    rw [collapseGo, ihrest, renderLeaves_cons_dict, lastGet_append, optOr_assoc,
      dictGet_dictUpdate _ _ hfresh, ihsub]
    simp

theorem renderPath_cons (sep : PyStr) (root : Option PyStr) (k : PyStr) (rest : List PyStr) :
    renderPath sep root (k :: rest) = renderPath sep (some (renderKey sep root k)) rest := rfl

theorem renderKey_some_of_ne {sep r k : PyStr} (hr : r ≠ []) :
    renderKey sep (some r) k = r ++ sep ++ k := by
  simp [renderKey, hr]

theorem renderPath_some {sep : PyStr} (hsep : sep ≠ []) :
    ∀ p : List PyStr, ∀ r : PyStr, p ≠ [] → r ≠ [] →
      renderPath sep (some r) p = r ++ sep ++ pyJoin sep p := by
  intro p
  induction p with
  | nil => intro r hp _; exact absurd rfl hp
  | cons k rest ih =>
    intro r _ hr
    cases rest with
    | nil =>
      rw [renderPath_cons]
      show renderKey sep (some r) k = r ++ sep ++ pyJoin sep [k]
      rw [renderKey_some_of_ne hr]
      rfl
    | cons y ys =>
      rw [renderPath_cons, renderKey_some_of_ne hr]
      have hne : r ++ sep ++ k ≠ [] := by
        simp only [ne_eq, List.append_eq_nil]
        rintro ⟨⟨-, hsepnil⟩, -⟩
        exact hsep hsepnil
      rw [ih (r ++ sep ++ k) (by simp) hne, pyJoin_cons]
      simp [List.append_assoc]

theorem renderPath_none {sep : PyStr} (hsep : sep ≠ []) (k : PyStr) (rest : List PyStr)
    (hk : k ≠ []) : renderPath sep none (k :: rest) = pyJoin sep (k :: rest) := by
  cases rest with
  | nil => rfl
  | cons y ys =>
    rw [renderPath_cons]
    show renderPath sep (some k) (y :: ys) = pyJoin sep (k :: y :: ys)
    rw [renderPath_some hsep (y :: ys) k (by simp) hk, pyJoin_cons]

end CollapseSpec

/-! ### Membership lemmas for dictSet / dictUpdate -/

section DictMem

variable {β : Type}

theorem mem_dictSet {d : List (PyStr × β)} {k : PyStr} {v : β} {kv : PyStr × β}
    (h : kv ∈ dictSet d k v) : kv ∈ d ∨ kv = (k, v) := by
  induction d with
  | nil =>
    simp only [dictSet, List.mem_singleton] at h
    exact Or.inr h
  | cons kv' rest ih =>
    obtain ⟨k', v'⟩ := kv'
    by_cases hk : k' = k
    · subst hk
      simp only [dictSet, if_true, List.mem_cons] at h
      rcases h with h1 | h2
      · exact Or.inr (by rw [h1])
      · exact Or.inl (List.mem_cons_of_mem _ h2)
    · simp only [dictSet, hk, if_false, List.mem_cons] at h
      rcases h with h1 | h2
      · exact Or.inl (by rw [h1]; exact List.mem_cons_self _ _)
      · rcases ih h2 with h3 | h4
        · exact Or.inl (List.mem_cons_of_mem _ h3)
        · exact Or.inr h4

theorem mem_dictUpdate {kv : PyStr × β} :
    ∀ {e d : List (PyStr × β)}, kv ∈ dictUpdate d e → kv ∈ d ∨ kv ∈ e := by
  intro e
  induction e with
  | nil =>
    intro d h
    exact Or.inl h
  | cons kv0 rest ih =>
    intro d h
    obtain ⟨k0, v0⟩ := kv0
    have step : dictUpdate d ((k0, v0) :: rest) = dictUpdate (dictSet d k0 v0) rest := rfl
    rw [step] at h
    rcases ih h with h1 | h2
    · rcases mem_dictSet h1 with h3 | h4
      · exact Or.inl h3
      · exact Or.inr (by rw [h4]; exact List.mem_cons_self _ _)
    · exact Or.inr (List.mem_cons_of_mem _ h2)

end DictMem

/-! ### Collapse output is flat; collapse is the identity on flat dicts -/

section CollapseFlat

variable {α : Type}

/-- A flat dict: every value is a non-dict value. -/
def flatDict (d : PyDict α) : Prop := ∀ kv ∈ d, ∃ a, kv.2 = PyVal.atom a

theorem flatDict_collapseGo (sep : PyStr) (entries : PyDict α) (root : Option PyStr)
    (result : PyDict α) (h : flatDict result) :
    flatDict (collapseGo sep entries root result) := by
  induction entries, root, result using collapseGo.induct sep with
  | case1 root result =>
    rw [collapseGo]
    exact h
  | case2 key a rest root result ih =>
    rw [collapseGo]
    refine ih ?_
    intro kv hkv
    rcases mem_dictSet hkv with h1 | h2
    · exact h kv h1
    · rw [h2]
      exact ⟨a, rfl⟩
  | case3 key sub rest root result ihsub ihrest =>
    rw [collapseGo]
    refine ihrest ?_
    intro kv hkv
    rcases mem_dictUpdate hkv with h1 | h2
    · exact h kv h1
    · exact ihsub (by intro kv h; simp at h) kv h2

theorem collapseGo_flat (sep : PyStr) :
    ∀ entries result : PyDict α, flatDict entries →
      collapseGo sep entries none result = dictUpdate result entries := by
  intro entries
  induction entries with
  | nil =>
    intro result _
    rw [collapseGo]
    rfl
  | cons kv rest ih =>
    intro result hflat
    obtain ⟨k, v⟩ := kv
    obtain ⟨a, ha⟩ := hflat (k, v) (List.mem_cons_self _ _)
    simp only at ha
    subst ha
    rw [collapseGo]
    have hkey : renderKey sep (none : Option PyStr) k = k := rfl
    rw [hkey]
    have hrest : flatDict rest := fun kv hkv => hflat kv (List.mem_cons_of_mem _ hkv)
    rw [ih (dictSet result k (PyVal.atom a)) hrest]
    rfl

theorem collapse_record_flat_nodup {sep : PyStr} {d : PyDict α}
    (hflat : flatDict d) (hnodup : (dictKeys d).Nodup) :
    collapse_record d sep none = d := by
  rw [collapse_record, collapseGo_flat sep d [] hflat]
  rw [dictUpdate_of_disjoint hnodup (by intro k _; simp)]
  rfl

end CollapseFlat

/-! ### Behaviour of insertPath (the expand_record loop body) -/

section InsertPath

variable {α : Type}

theorem wfTree_mem {t : PyDict α} (hwf : wfTree t) {k : PyStr} {v : PyVal α}
    (h : (k, v) ∈ t) :
    k ≠ [] ∧ ∀ sub, v = PyVal.dict sub → sub ≠ [] ∧ wfTree sub := by
  induction t with
  | nil => simp at h
  | cons kv rest ih =>
    obtain ⟨k', v'⟩ := kv
    rcases List.mem_cons.mp h with h1 | h2
    · cases h1
      cases v with
      | atom a =>
        rw [wfTree_cons_atom] at hwf
        exact ⟨hwf.1, by simp⟩
      | dict sub =>
        rw [wfTree_cons_dict] at hwf
        refine ⟨hwf.1, ?_⟩
        intro sub' hsub'
        cases hsub'
        exact ⟨hwf.2.1, hwf.2.2.1⟩
    · cases v' with
      | atom a =>
        rw [wfTree_cons_atom] at hwf
        exact ih hwf.2 h2
      | dict sub =>
        rw [wfTree_cons_dict] at hwf
        exact ih hwf.2.2.2 h2

/-- If a well-formed tree answers a key, some atom path starts with it. -/
theorem atomPath_head_of_dictGet {t : PyDict α} (hwf : wfTree t) {k : PyStr}
    {w : PyVal α} (h : dictGet t k = some w) :
    ∃ tail, (k :: tail) ∈ atomPaths t ∨ ([k] ∈ atomPaths t ∧ tail = []) := by
  cases w with
  | atom a =>
    refine ⟨[], Or.inr ⟨?_, rfl⟩⟩
    have hmem := mem_leaves_of_mem_atom (dictGet_mem h)
    exact List.mem_map.mpr ⟨([k], PyVal.atom a), hmem, rfl⟩
  | dict sub =>
    obtain ⟨-, hdict⟩ := wfTree_mem hwf (dictGet_mem h)
    obtain ⟨hne, hwfsub⟩ := hdict sub rfl
    obtain ⟨pv, hpv⟩ := List.exists_mem_of_ne_nil _ (leaves_ne_nil_of_wf sub hwfsub hne)
    refine ⟨pv.1, Or.inl ?_⟩
    have hmem := mem_leaves_of_mem_dict (dictGet_mem h) hpv
    exact List.mem_map.mpr ⟨(k :: pv.1, pv.2), hmem, rfl⟩

/-- Building a fresh chain of dicts along a path (the `current[part] = {}`
branch of the loop, iterated). -/
theorem insertPath_nil_spec (a : α) :
    ∀ p : List PyStr, p ≠ [] → (∀ s ∈ p, s ≠ []) →
      ∃ s, insertPath ([] : PyDict α) p (PyVal.atom a) = some s ∧ wfTree s ∧
        leaves s = [(p, PyVal.atom a)] ∧ s ≠ [] := by
  intro p
  induction p with
  | nil => intro hp _; exact absurd rfl hp
  | cons part rest ih =>
    intro _ hseg
    cases rest with
    | nil =>
      refine ⟨[(part, PyVal.atom a)], rfl, ?_, by simp, by simp⟩
      rw [wfTree_cons_atom]
      exact ⟨hseg part (by simp), wfTree_nil⟩
    | cons r0 rs =>
      obtain ⟨s, hs, hwfs, hleaves, hne⟩ := ih (by simp)
        (fun x hx => hseg x (List.mem_cons_of_mem _ hx))
      refine ⟨[(part, PyVal.dict s)], ?_, ?_, ?_, by simp⟩
      · have hred : insertPath ([] : PyDict α) (part :: r0 :: rs) (PyVal.atom a)
            = (insertPath [] (r0 :: rs) (PyVal.atom a)).map
                (fun sub => dictSet [] part (PyVal.dict sub)) := by
          rw [insertPath, dictGet_nil]
          all_goals simp
        rw [hred, hs]
        rfl
      · rw [wfTree_cons_dict]
        exact ⟨hseg part (by simp), hne, hwfs, wfTree_nil⟩
      · rw [leaves_cons_dict, hleaves]
        simp

/-- The step lemma for `expand_record`: inserting a fresh, non-colliding
path into a well-formed tree succeeds and adds exactly one leaf. -/
theorem insertPath_spec (a : α) :
    ∀ p : List PyStr, ∀ t : PyDict α,
      p ≠ [] → (∀ s ∈ p, s ≠ []) → wfTree t →
      (∀ q ∈ atomPaths t, ¬ q <+: p) →
      (∀ q ∈ atomPaths t, ¬ p <+: q) →
      ∃ t', insertPath t p (PyVal.atom a) = some t' ∧ wfTree t' ∧
        (leaves t').Perm ((p, PyVal.atom a) :: leaves t) := by
  intro p
  induction p with
  | nil => intro t hp _ _ _ _; exact absurd rfl hp
  | cons part rest ih =>
    intro t _ hseg hwf h1 h2
    cases rest with
    | nil =>
      -- single-segment path: `result[path[-1]] = value`
      have hget : dictGet t part = none := by
        cases hget : dictGet t part with
        | none => rfl
        | some w =>
          obtain ⟨tail, htail⟩ := atomPath_head_of_dictGet hwf hget
          rcases htail with hq | ⟨hq, -⟩
          · exact absurd (List.cons_prefix_cons.mpr ⟨rfl, (by simp : ([] : List PyStr) <+: tail)⟩)
              (h2 (part :: tail) hq)
          · exact absurd (List.prefix_refl [part]) (h1 [part] hq)
      refine ⟨dictSet t part (PyVal.atom a), rfl, ?_, ?_⟩
      · rw [dictSet_of_get_none _ hget, wfTree_append, wfTree_cons_atom]
        exact ⟨hwf, hseg part (by simp), wfTree_nil⟩
      · rw [dictSet_of_get_none _ hget, leaves_append, leaves_cons_atom, leaves_nil]
        exact List.perm_append_singleton _ _
    | cons r0 rs =>
      have hsegrest : ∀ s ∈ r0 :: rs, s ≠ [] :=
        fun x hx => hseg x (List.mem_cons_of_mem _ hx)
      cases hget : dictGet t part with
      | some w =>
        cases w with
        | atom a' =>
          exfalso
          have hmem : [part] ∈ atomPaths t :=
            List.mem_map.mpr ⟨([part], PyVal.atom a'),
              mem_leaves_of_mem_atom (dictGet_mem hget), rfl⟩
          exact h1 [part] hmem
            (List.cons_prefix_cons.mpr ⟨rfl, (by simp : ([] : List PyStr) <+: r0 :: rs)⟩)
        | dict sub =>
          obtain ⟨-, hdict⟩ := wfTree_mem hwf (dictGet_mem hget)
          obtain ⟨hsubne, hwfsub⟩ := hdict sub rfl
          have hsub1 : ∀ q ∈ atomPaths sub, ¬ q <+: r0 :: rs := by
            intro q hq hpre
            have hq' : part :: q ∈ atomPaths t := by
              obtain ⟨pv, hpv, hpveq⟩ := List.mem_map.mp hq
              refine List.mem_map.mpr ⟨(part :: pv.1, pv.2),
                mem_leaves_of_mem_dict (dictGet_mem hget) hpv, ?_⟩
              simp [hpveq]
            exact h1 (part :: q) hq' (List.cons_prefix_cons.mpr ⟨rfl, hpre⟩)
          have hsub2 : ∀ q ∈ atomPaths sub, ¬ (r0 :: rs) <+: q := by
            intro q hq hpre
            have hq' : part :: q ∈ atomPaths t := by
              obtain ⟨pv, hpv, hpveq⟩ := List.mem_map.mp hq
              refine List.mem_map.mpr ⟨(part :: pv.1, pv.2),
                mem_leaves_of_mem_dict (dictGet_mem hget) hpv, ?_⟩
              simp [hpveq]
            exact h2 (part :: q) hq' (List.cons_prefix_cons.mpr ⟨rfl, hpre⟩)
          obtain ⟨sub', hins, hwfsub', hleavessub'⟩ :=
            ih sub (by simp) hsegrest hwfsub hsub1 hsub2
          obtain ⟨pre, post, hsplit, hprekeys, hset⟩ :=
            dictSet_of_get_some (PyVal.dict sub') hget
          have hstep : insertPath t (part :: r0 :: rs) (PyVal.atom a)
              = some (dictSet t part (PyVal.dict sub')) := by
            have hred : insertPath t (part :: r0 :: rs) (PyVal.atom a)
                = (insertPath sub (r0 :: rs) (PyVal.atom a)).map
                    (fun s => dictSet t part (PyVal.dict s)) := by
              rw [insertPath, hget]
              all_goals simp
            rw [hred, hins]
            rfl
          refine ⟨dictSet t part (PyVal.dict sub'), hstep, ?_, ?_⟩
          · rw [hset, wfTree_append, wfTree_cons_dict]
            rw [hsplit, wfTree_append, wfTree_cons_dict] at hwf
            have hsub'ne : sub' ≠ [] := by
              intro hnil
              rw [hnil, leaves_nil] at hleavessub'
              exact (List.cons_ne_nil _ _) hleavessub'.symm.eq_nil
            exact ⟨hwf.1, hwf.2.1, hsub'ne, hwfsub', hwf.2.2.2.2⟩
          · rw [hset, hsplit, leaves_append, leaves_append, leaves_cons_dict,
              leaves_cons_dict]
            have hmap : ((leaves sub').map (fun pv => (part :: pv.1, pv.2))).Perm
                ((part :: r0 :: rs, PyVal.atom a)
                    :: (leaves sub).map (fun pv => (part :: pv.1, pv.2))) :=
              hleavessub'.map _
            refine ((hmap.append_right (leaves post)).append_left (leaves pre)).trans ?_
            rw [List.cons_append]
            exact List.perm_middle
      | none =>
        obtain ⟨s, hs, hwfs, hleavess, hsne⟩ :=
          insertPath_nil_spec a (r0 :: rs) (by simp) hsegrest
        have hstep : insertPath t (part :: r0 :: rs) (PyVal.atom a)
            = some (dictSet t part (PyVal.dict s)) := by
          have hred : insertPath t (part :: r0 :: rs) (PyVal.atom a)
              = (insertPath [] (r0 :: rs) (PyVal.atom a)).map
                  (fun s => dictSet t part (PyVal.dict s)) := by
            rw [insertPath, hget]
            all_goals simp
          rw [hred, hs]
          rfl
        refine ⟨dictSet t part (PyVal.dict s), hstep, ?_, ?_⟩
        · rw [dictSet_of_get_none _ hget, wfTree_append, wfTree_cons_dict]
          exact ⟨hwf, hseg part (by simp), hsne, hwfs, wfTree_nil⟩
        · rw [dictSet_of_get_none _ hget, leaves_append, leaves_cons_dict, hleavess]
          simp only [List.map_cons, List.map_nil, leaves_nil, List.append_nil]
          exact List.perm_append_singleton _ _

end InsertPath

/-! ### The expand_record loop invariant and the round trip -/

section ExpandSpec

variable {α : Type}

/-- Python `type(value) == dict`. -/
def PyVal.isDict : PyVal α → Bool
  | PyVal.atom _ => false
  | PyVal.dict _ => true

theorem isAtom_of_not_isDict {v : PyVal α} (h : v.isDict = false) :
    ∃ a, v = PyVal.atom a := by
  cases v with
  | atom a => exact ⟨a, rfl⟩
  | dict d => simp [PyVal.isDict] at h

theorem expand_loop_spec (sep : PyStr) :
    ∀ (r : PyDict α) (t : PyDict α) (done : List (List PyStr × PyVal α)),
      wfTree t →
      (leaves t).Perm done →
      (∀ q ∈ done.map Prod.fst, ∀ kv ∈ r,
        ¬ q <+: pySplit sep kv.1 ∧ ¬ pySplit sep kv.1 <+: q) →
      (∀ kv ∈ r, ∃ a, kv.2 = PyVal.atom a) →
      (∀ kv ∈ r, ∀ s ∈ pySplit sep kv.1, s ≠ []) →
      List.Pairwise (fun kv1 kv2 => ¬ pySplit sep kv1.1 <+: pySplit sep kv2.1 ∧
        ¬ pySplit sep kv2.1 <+: pySplit sep kv1.1) r →
      ∃ t', r.foldlM (fun result kv => insertPath result (pySplit sep kv.1) kv.2) t = some t'
        ∧ wfTree t'
        ∧ (leaves t').Perm (done ++ r.map (fun kv => (pySplit sep kv.1, kv.2))) := by
  intro r
  induction r with
  | nil =>
    intro t done hwf hperm _ _ _ _
    refine ⟨t, by simp, hwf, by simp only [List.map_nil, List.append_nil]; exact hperm⟩
  | cons kv rest ih =>
    intro t done hwf hperm hcompat hflat hseg hpair
    obtain ⟨k, v⟩ := kv
    obtain ⟨a, ha⟩ := hflat (k, v) (List.mem_cons_self _ _)
    simp only at ha
    subst ha
    have hsegk : ∀ s ∈ pySplit sep k, s ≠ [] :=
      hseg (k, PyVal.atom a) (List.mem_cons_self _ _)
    have h1 : ∀ q ∈ atomPaths t, ¬ q <+: pySplit sep k := by
      intro q hq
      have hq' : q ∈ done.map Prod.fst :=
        ((hperm.map Prod.fst).mem_iff).mp hq
      exact (hcompat q hq' (k, PyVal.atom a) (List.mem_cons_self _ _)).1
    have h2 : ∀ q ∈ atomPaths t, ¬ pySplit sep k <+: q := by
      intro q hq
      have hq' : q ∈ done.map Prod.fst :=
        ((hperm.map Prod.fst).mem_iff).mp hq
      exact (hcompat q hq' (k, PyVal.atom a) (List.mem_cons_self _ _)).2
    obtain ⟨t₁, hins, hwf₁, hperm₁⟩ :=
      insertPath_spec a (pySplit sep k) t (pySplit_ne_nil sep k) hsegk hwf h1 h2
    have hpairrest := (List.pairwise_cons.mp hpair).2
    have hheadrel := (List.pairwise_cons.mp hpair).1
    have hperm₁' : (leaves t₁).Perm (done ++ [(pySplit sep k, PyVal.atom a)]) :=
      hperm₁.trans ((hperm.cons _).trans (List.perm_append_singleton _ _).symm)
    have hcompat' : ∀ q ∈ (done ++ [(pySplit sep k, PyVal.atom a)]).map Prod.fst,
        ∀ kv ∈ rest, ¬ q <+: pySplit sep kv.1 ∧ ¬ pySplit sep kv.1 <+: q := by
      intro q hq kv hkv
      simp only [List.map_append, List.map_cons, List.map_nil, List.mem_append,
        List.mem_singleton] at hq
      rcases hq with hq1 | hq2
      · exact hcompat q hq1 kv (List.mem_cons_of_mem _ hkv)
      · subst hq2
        obtain ⟨hx, hy⟩ := hheadrel kv hkv
        exact ⟨hx, hy⟩
    obtain ⟨t', hfold, hwf', hperm'⟩ := ih t₁ (done ++ [(pySplit sep k, PyVal.atom a)])
      hwf₁ hperm₁' hcompat'
      (fun kv hkv => hflat kv (List.mem_cons_of_mem _ hkv))
      (fun kv hkv => hseg kv (List.mem_cons_of_mem _ hkv))
      hpairrest
    refine ⟨t', ?_, hwf', ?_⟩
    · rw [List.foldlM_cons, hins]
      simpa using hfold
    · refine hperm'.trans ?_
      simp [List.append_assoc]

/-- Build `pyDictEq` from pointwise lookup agreement plus key uniqueness. -/
theorem pyDictEq_of_lookup {a b : PyDict α} (hab : ∀ k, dictGet a k = dictGet b k)
    (hna : (dictKeys a).Nodup) (hnb : (dictKeys b).Nodup) : pyDictEq a b := by
  constructor
  · intro kv hkv
    rw [← hab]
    exact dictGet_eq_of_mem_of_nodup hkv hna
  · intro kv hkv
    rw [hab]
    exact dictGet_eq_of_mem_of_nodup hkv hnb

end ExpandSpec

/-! ### Failure behaviour of expand_record -/

section ExpandFailure

variable {α : Type}

/-- Navigate a nested record along a path of keys. -/
def getPath : PyDict α → List PyStr → Option (PyVal α)
  | _, [] => none
  | t, [k] => dictGet t k
  | t, k :: rest =>
    match dictGet t k with
    | some (PyVal.dict sub) => getPath sub rest
    | _ => none

/-- If a proper, non-empty prefix of the path already holds a non-dict
value, the insertion raises (is `none`): the loop walks into the stored
non-dict value and the next subscript on it fails. -/
theorem insertPath_none_of_atom_prefix :
    ∀ (q : List PyStr) (t : PyDict α) (p : List PyStr) (v : PyVal α) (a : α),
      getPath t q = some (PyVal.atom a) → q ≠ [] → q <+: p → q ≠ p →
      insertPath t p v = none := by
  intro q
  induction q with
  | nil => intro t p v a _ hq _ _; exact absurd rfl hq
  | cons k1 qrest ih =>
    intro t p v a hget _ hpre hne
    cases p with
    | nil =>
      exact absurd (List.eq_nil_of_prefix_nil hpre) (List.cons_ne_nil _ _)
    | cons p0 ps =>
      obtain ⟨hk, hpre'⟩ := List.cons_prefix_cons.mp hpre
      subst hk
      cases qrest with
      | nil =>
        have hget1 : dictGet t k1 = some (PyVal.atom a) := hget
        have hps : ps ≠ [] := by
          intro hnil
          subst hnil
          exact hne rfl
        cases ps with
        | nil => exact absurd rfl hps
        | cons r0 rs =>
          rw [insertPath, hget1]
          all_goals simp
      | cons q0 qs =>
        have hgetred : getPath t (k1 :: q0 :: qs)
            = (match dictGet t k1 with
               | some (PyVal.dict sub) => getPath sub (q0 :: qs)
               | _ => none) := by
          rw [getPath]
          all_goals simp
        rw [hgetred] at hget
        cases hdq : dictGet t k1 with
        | none => rw [hdq] at hget; simp at hget
        | some w =>
          cases w with
          | atom a' => rw [hdq] at hget; simp at hget
          | dict sub =>
            rw [hdq] at hget
            have hps : ps ≠ [] := by
              intro hnil
              subst hnil
              exact (List.cons_ne_nil _ _) (List.prefix_nil.mp hpre')
            cases ps with
            | nil => exact absurd rfl hps
            | cons r0 rs =>
              have hrec : insertPath sub (r0 :: rs) v = none := by
                refine ih sub (r0 :: rs) v a hget (by simp) hpre' ?_
                intro heq
                exact hne (by rw [heq])
              have hred : insertPath t (k1 :: r0 :: rs) v
                  = (insertPath sub (r0 :: rs) v).map
                      (fun s => dictSet t k1 (PyVal.dict s)) := by
                rw [insertPath, hdq]
                all_goals simp
              rw [hred, hrec]
              rfl

end ExpandFailure

/-! ### Claims C2, C7, C10 -/

/-- C2: for every flat record whose keys split (on a non-empty separator)
into paths with no empty segment, whose keys are distinct (a Python dict
invariant) and whose paths do not collide (no path is a proper prefix of
another), `expand_record` succeeds and `collapse_record` of its result is
`==`-equal to the original record: expand and collapse are exact
structural inverses under that precondition. -/
theorem C2_expand_collapse_inverse {α : Type} (r : PyDict α) (sep : PyStr)
    (hsep : sep ≠ [])
    (hflat : ∀ kv ∈ r, PyVal.isDict kv.2 = false)
    (hnodup : (dictKeys r).Nodup)
    (hseg : ∀ kv ∈ r, ([] : PyStr) ∉ pySplit sep kv.1)
    (hcol : ∀ kv1 ∈ r, ∀ kv2 ∈ r, kv1.1 ≠ kv2.1 →
      ¬ pySplit sep kv1.1 <+: pySplit sep kv2.1) :
    ∃ e, expand_record r sep = some e ∧ pyDictEq (collapse_record e sep none) r := by
  have hflat' : ∀ kv ∈ r, ∃ a, kv.2 = PyVal.atom a :=
    fun kv h => isAtom_of_not_isDict (hflat kv h)
  have hseg' : ∀ kv ∈ r, ∀ s ∈ pySplit sep kv.1, s ≠ [] := by
    intro kv h s hs hnil
    subst hnil
    exact hseg kv h hs
  have hpairkeys : List.Pairwise (fun kv1 kv2 : PyStr × PyVal α => kv1.1 ≠ kv2.1) r :=
    List.pairwise_map.mp hnodup
  have hpair : List.Pairwise (fun kv1 kv2 : PyStr × PyVal α =>
      ¬ pySplit sep kv1.1 <+: pySplit sep kv2.1 ∧
      ¬ pySplit sep kv2.1 <+: pySplit sep kv1.1) r := by
    refine hpairkeys.imp_of_mem ?_
    intro a b ha hb hne
    exact ⟨hcol a ha b hb hne, hcol b hb a ha (Ne.symm hne)⟩
  obtain ⟨e, hfold, hwf, hleaves⟩ := expand_loop_spec sep r [] []
    wfTree_nil (by simp) (by intro q hq kv hkv; simp at hq) hflat' hseg' hpair
  refine ⟨e, hfold, ?_⟩
  have hlv : (leaves e).Perm (r.map (fun kv => (pySplit sep kv.1, kv.2))) := by
    simpa using hleaves
  have hRL : (renderLeaves sep none e).Perm r := by
    have h1 := hlv.map (fun pv : List PyStr × PyVal α => (renderPath sep none pv.1, pv.2))
    rw [List.map_map] at h1
    have h2 : r.map ((fun pv : List PyStr × PyVal α => (renderPath sep none pv.1, pv.2))
        ∘ fun kv : PyStr × PyVal α => (pySplit sep kv.1, kv.2)) = r := by
      have hpt : ∀ kv ∈ r,
          ((fun pv : List PyStr × PyVal α => (renderPath sep none pv.1, pv.2))
            ∘ fun kv : PyStr × PyVal α => (pySplit sep kv.1, kv.2)) kv = kv := by
        intro kv hkv
        simp only [Function.comp_apply]
        cases hsp : pySplit sep kv.1 with
        | nil => exact absurd hsp (pySplit_ne_nil sep kv.1)
        | cons k0 ktail =>
          have hk0 : k0 ≠ [] := by
            intro h0
            apply hseg kv hkv
            rw [hsp, ← h0]
            exact List.mem_cons_self _ _
          rw [renderPath_none hsep k0 ktail hk0, ← hsp, pyJoin_pySplit hsep]
      rw [List.map_congr_left hpt]
      exact List.map_id r
    rw [h2] at h1
    exact h1
  have hRLnodup : (dictKeys (renderLeaves sep none e)).Nodup :=
    ((hRL.map Prod.fst).nodup_iff).mpr hnodup
  have hck : ∀ k, dictGet (collapse_record e sep none) k = dictGet r k := by
    intro k
    rw [collapse_record, dictGet_collapseGo]
    simp only [dictGet_nil, optOr_none_right]
    rw [lastGet_eq_dictGet_of_nodup hRLnodup]
    exact dictGet_eq_dictGet_of_perm hRL hRLnodup
  have hcolnodup : (dictKeys (collapse_record e sep none)).Nodup :=
    nodup_dictKeys_collapseGo sep e none [] (by simp)
  exact pyDictEq_of_lookup hck hcolnodup hnodup

/-- Witness for C2 at the record {"a.b": 1, "c": 2} with separator ".". -/
theorem C2_expand_collapse_inverse_witness :
    (pstr "." ≠ ([] : PyStr)) ∧
    (∃ e, expand_record
        [(pstr "a.b", PyVal.atom (1 : Nat)), (pstr "c", PyVal.atom 2)] (pstr ".") = some e
      ∧ pyDictEq (collapse_record e (pstr ".") none)
          [(pstr "a.b", PyVal.atom (1 : Nat)), (pstr "c", PyVal.atom 2)]) := by
  constructor
  · decide
  · exact C2_expand_collapse_inverse
      [(pstr "a.b", PyVal.atom (1 : Nat)), (pstr "c", PyVal.atom 2)] (pstr ".")
      (by decide) (by decide) (by decide) (by decide) (by decide)

/-- C7 counterexample: in {"a.b": 1, "a": 2} the path of key "a" is a
proper prefix of the path of key "a.b", yet `expand_record` does not fail:
when the longer key is processed first, the later short key silently
overwrites the nested dict, and a record is returned. -/
theorem C7_counterexample :
    expand_record [(pstr "a.b", PyVal.atom (1 : Nat)), (pstr "a", PyVal.atom 2)] (pstr ".")
        = some [(pstr "a", PyVal.atom 2)]
      ∧ pySplit (pstr ".") (pstr "a") <+: pySplit (pstr ".") (pstr "a.b")
      ∧ pySplit (pstr ".") (pstr "a") ≠ pySplit (pstr ".") (pstr "a.b") := by
  refine ⟨by rfl, by decide, by decide⟩

/-- C7 amended: `expand_record` fails on a prefix collision only when, at
the moment a key is processed, a proper prefix of its path already holds a
non-dict value in the partially built result (i.e. the shorter key was
processed earlier); then the whole call returns an error. -/
theorem C7_expand_fails_on_existing_atom_prefix {α : Type}
    (r1 r2 : PyDict α) (k : PyStr) (v : PyVal α) (sep : PyStr) (t : PyDict α)
    (q : List PyStr) (a : α)
    (h1 : expand_record r1 sep = some t)
    (h2 : getPath t q = some (PyVal.atom a))
    (h3 : q ≠ [])
    (h4 : q <+: pySplit sep k)
    (h5 : q ≠ pySplit sep k) :
    expand_record (r1 ++ (k, v) :: r2) sep = none := by
  have hins : insertPath t (pySplit sep k) v = none :=
    insertPath_none_of_atom_prefix q t (pySplit sep k) v a h2 h3 h4 h5
  rw [expand_record, List.foldlM_append]
  have h1' : List.foldlM
      (fun result kv => insertPath result (pySplit sep kv.1) kv.2) ([] : PyDict α) r1
        = some t := h1
  rw [h1']
  show List.foldlM (fun result kv => insertPath result (pySplit sep kv.1) kv.2)
    t ((k, v) :: r2) = none
  rw [List.foldlM_cons, hins]
  rfl

/-- Witness for the amended C7: after {"a": 2} is expanded, inserting key
"a.b" hits the non-dict value at path ["a"] and the call fails. -/
theorem C7_expand_fails_on_existing_atom_prefix_witness :
    expand_record [(pstr "a", PyVal.atom (2 : Nat)), (pstr "a.b", PyVal.atom 1)] (pstr ".")
      = none := by
  have h := C7_expand_fails_on_existing_atom_prefix
    [(pstr "a", PyVal.atom (2 : Nat))] [] (pstr "a.b") (PyVal.atom 1) (pstr ".")
    [(pstr "a", PyVal.atom (2 : Nat))] [pstr "a"] 2
    (by rfl) (by rfl) (by decide) (by decide) (by decide)
  simpa using h

/-- C10: `collapse_record` is idempotent for every record and separator,
because its output never contains dict values. -/
theorem C10_collapse_idempotent {α : Type} (r : PyDict α) (sep : PyStr) :
    collapse_record (collapse_record r sep none) sep none = collapse_record r sep none := by
  apply collapse_record_flat_nodup
  · exact flatDict_collapseGo sep r none [] (by intro kv h; simp at h)
  · exact nodup_dictKeys_collapseGo sep r none [] (by simp)

/-! ### Schema model: Field and the Schema Inference Driver

Models of `Field` and `DataSource.read_fields` from src/brewery/ds/base.py.

The `brewery.dq.FieldTypeProbe` accumulator imported by `read_fields` is
not part of the repository sources provided, so the probe is modelled from
the spec (§4.3): a probe keeps the set of distinct concrete value kinds
seen (`null, boolean, integer, float, text-like, other`), and its unique
storage type is the single observed non-null kind, if there is exactly
one, rendered as the corresponding Python 2 type name (text-like kind ↔
type name "unicode").  Records probed by `read_fields` carry a `Kind` as
the payload of each non-dict value.

`read_fields` references a stream attribute `self.expand` that no class in
the sources defines; it is modelled as the boolean parameter
`expandFlag`.  The model also returns, as second component, the number of
records consumed from the stream. -/

section Schema

/-- The concrete value kinds a Type Probe distinguishes (spec §4.3). -/
inductive Kind where
  | null
  | boolean
  | integer
  | float
  | textLike
  | other
  deriving Repr, DecidableEq

/-- Modelled from the spec: the Python 2 type name under which a probed
kind is reported by the (missing) brewery.dq probe. -/
def kindName : Kind → PyStr
  | Kind.null => pstr "NoneType"
  | Kind.boolean => pstr "bool"
  | Kind.integer => pstr "int"
  | Kind.float => pstr "float"
  | Kind.textLike => pstr "unicode"
  | Kind.other => pstr "object"

/-- Modelled from the spec: the unique observed non-null kind, if exactly
one non-null kind was observed. -/
def uniqueNonNullKind (observed : List Kind) : Option Kind :=
  match observed.filter (fun k => k ≠ Kind.null) with
  | [k] => some k
  | _ => none

/-- Modelled from the spec: `probe.unique_storage_type` as consumed by
`read_fields` — the unique non-null kind's Python type name. -/
def unique_storage_type (observed : List Kind) : Option PyStr :=
  (uniqueNonNullKind observed).map kindName

/-- The `Field` metadata entity (src/brewery/ds/base.py, class Field),
with the constructor's default values. -/
structure Field where
  name : PyStr
  label : Option PyStr := none
  storage_type : PyStr := pstr "unknown"
  analytical_type : Option PyStr := none
  concrete_storage_type : Option PyStr := none
  missing_values : Option (List PyStr) := none
  deriving Repr, DecidableEq

/-- The table `Field.default_analytical_type` from src/brewery/ds/base.py
(note: `boolean` has no entry). -/
def default_analytical_type : List (PyStr × PyStr) :=
  [(pstr "unknown", pstr "typeless"),
   (pstr "string", pstr "typeless"),
   (pstr "text", pstr "typeless"),
   (pstr "integer", pstr "discrete"),
   (pstr "float", pstr "range"),
   (pstr "date", pstr "typeless")]

/-- The mutable state of one `read_fields` run: the discovery-order key
list and the per-key probe accumulators (observed kind sets). -/
structure ProbeState where
  keys : List PyStr
  probes : List (PyStr × List Kind)
  deriving Repr

/-- `full_key = parent + "." + key if parent else key` (both `None` and
the empty string are falsy). -/
def fkey (parent : Option PyStr) (key : PyStr) : PyStr :=
  match parent with
  | some p => if p = [] then key else p ++ pstr "." ++ key
  | none => key

/-- One probe event for a (full key, kind) pair: create the accumulator if
the key is new (appending the key to the discovery list), then record the
observed kind in the accumulator's set. -/
def stAdd (st : ProbeState) (p : PyStr × Kind) : ProbeState :=
  let st1 := if (dictGet st.probes p.1).isSome then st
    else { keys := st.keys ++ [p.1], probes := dictSet st.probes p.1 [] }
  { st1 with probes :=
      match dictGet st1.probes p.1 with
      | some l => dictSet st1.probes p.1 (if p.2 ∈ l then l else l ++ [p.2])
      | none => st1.probes }

/-- The inner `probe_record` closure of `read_fields`: walk the record's
items; recurse into dict values when the stream's `expand` attribute is
set, probe the value otherwise. -/
def probeRecord (expandFlag : Bool) : PyDict Kind → Option PyStr → ProbeState → ProbeState
  | [], _, st => st
  | (key, PyVal.atom k) :: rest, parent, st =>
    probeRecord expandFlag rest parent (stAdd st (fkey parent key, k))
  | (key, PyVal.dict sub) :: rest, parent, st =>
    if expandFlag then
      probeRecord expandFlag rest parent
        (probeRecord expandFlag sub (some (fkey parent key)) st)
    else
      probeRecord expandFlag rest parent (stAdd st (fkey parent key, Kind.other))
termination_by entries _ _ => sizeOf entries

/-- The record loop of `read_fields`: optionally collapse each record,
probe it, and stop after the break condition `limit and count >= limit`
fires.  Returns the final state and the number of records consumed. -/
def readLoop (expandFlag collapseFlag : Bool) :
    List (PyDict Kind) → Nat → Nat → ProbeState → ProbeState × Nat
  | [], _, _, st => (st, 0)
  | record :: rest, limit, count, st =>
    let record' := if collapseFlag then collapse_record record (pstr ".") none else record
    let st' := probeRecord expandFlag record' none st
    if limit ≠ 0 ∧ count ≥ limit then (st', 1)
    else
      let r := readLoop expandFlag collapseFlag rest limit (count + 1) st'
      (r.1, r.2 + 1)

/-- Resolution of one probed key into a `Field`
(src/brewery/ds/base.py lines 359-374). -/
def resolveField (probes : List (PyStr × List Kind)) (key : PyStr) : Field :=
  let observed := (dictGet probes key).getD []
  let field : Field := { name := key }
  match unique_storage_type observed with
  | none => { field with storage_type := pstr "unknown" }
  | some st =>
    if st = pstr "unicode" then { field with storage_type := pstr "string" }
    else { field with storage_type := pstr "unknown", concrete_storage_type := some st }

/-- `DataSource.read_fields(limit, collapse)` over a record stream, with
the stream's `expand` attribute as a parameter; also returns how many
records were consumed. -/
def read_fields (records : List (PyDict Kind)) (expandFlag : Bool) (limit : Nat)
    (collapse : Bool) : List Field × Nat :=
  let r := readLoop expandFlag collapse records limit 0 ⟨[], []⟩
  (r.1.keys.map (resolveField r.1.probes), r.2)

/-! ### Reference view of the scan

`recordPairs`/`streamPairs` list, in probe order, the (full key, kind)
events the driver generates; the state built by `read_fields` is the fold
of `stAdd` over this event list, which the lemmas below establish. -/

/-- The (full key, kind) probe events of one record, in probe order. -/
def recordPairs (expandFlag : Bool) : PyDict Kind → Option PyStr → List (PyStr × Kind)
  | [], _ => []
  | (key, PyVal.atom k) :: rest, parent =>
    (fkey parent key, k) :: recordPairs expandFlag rest parent
  | (key, PyVal.dict sub) :: rest, parent =>
    if expandFlag then
      recordPairs expandFlag sub (some (fkey parent key))
        ++ recordPairs expandFlag rest parent
    else
      (fkey parent key, Kind.other) :: recordPairs expandFlag rest parent
termination_by entries _ => sizeOf entries

/-- The probe events of the records the loop actually consumes. -/
def streamPairs (expandFlag collapseFlag : Bool) :
    List (PyDict Kind) → Nat → Nat → List (PyStr × Kind)
  | [], _, _ => []
  | record :: rest, limit, count =>
    let record' := if collapseFlag then collapse_record record (pstr ".") none else record
    recordPairs expandFlag record' none
      ++ (if limit ≠ 0 ∧ count ≥ limit then []
          else streamPairs expandFlag collapseFlag rest limit (count + 1))

/-- First occurrences of the elements of `l`, in order of first appearance. -/
def firstOccurrences (l : List PyStr) : List PyStr :=
  l.foldl (fun acc k => if k ∈ acc then acc else acc ++ [k]) []

/-- Fold the observed kinds into an observed-kind set (first-seen order). -/
def dedupKinds (init : List Kind) (ks : List Kind) : List Kind :=
  ks.foldl (fun acc k => if k ∈ acc then acc else acc ++ [k]) init

/-- The kinds observed at one key along an event list, in order. -/
def kindsAt (k : PyStr) (pairs : List (PyStr × Kind)) : List Kind :=
  (pairs.filter (fun p => p.1 = k)).map Prod.snd

/-- The observed-kind set the driver accumulates for `key` on a stream. -/
def observedKinds (expandFlag collapseFlag : Bool) (records : List (PyDict Kind))
    (limit : Nat) (key : PyStr) : List Kind :=
  dedupKinds [] (kindsAt key (streamPairs expandFlag collapseFlag records limit 0))

theorem probeRecord_eq_foldl (expandFlag : Bool) (entries : PyDict Kind)
    (parent : Option PyStr) (st : ProbeState) :
    probeRecord expandFlag entries parent st
      = (recordPairs expandFlag entries parent).foldl stAdd st := by
  induction entries, parent, st using probeRecord.induct expandFlag with
  | case1 parent st =>
    rw [probeRecord, recordPairs]
    rfl
  | case2 key k rest parent st ih =>
    rw [probeRecord, recordPairs, ih]
    rfl
  | case3 key sub rest parent st hflag ihsub ihrest =>
    rw [probeRecord, recordPairs, if_pos hflag, if_pos hflag, ihrest, ihsub,
      List.foldl_append]
  | case4 key sub rest parent st hflag ih =>
    rw [probeRecord, recordPairs, if_neg hflag, if_neg hflag, ih]
    rfl

theorem readLoop_state (expandFlag collapseFlag : Bool) :
    ∀ (records : List (PyDict Kind)) (limit count : Nat) (st : ProbeState),
      (readLoop expandFlag collapseFlag records limit count st).1
        = (streamPairs expandFlag collapseFlag records limit count).foldl stAdd st := by
  intro records
  induction records with
  | nil => intro limit count st; rfl
  | cons record rest ih =>
    intro limit count st
    rw [readLoop, streamPairs]
    by_cases hbr : limit ≠ 0 ∧ count ≥ limit
    · rw [if_pos hbr, if_pos hbr, List.foldl_append, probeRecord_eq_foldl]
      rfl
    · rw [if_neg hbr, if_neg hbr, List.foldl_append, probeRecord_eq_foldl]
      exact ih limit (count + 1) _

theorem readLoop_count (expandFlag collapseFlag : Bool) :
    ∀ (records : List (PyDict Kind)) (limit count : Nat) (st : ProbeState),
      limit ≠ 0 → count ≤ limit →
      (readLoop expandFlag collapseFlag records limit count st).2
        = min (limit + 1 - count) records.length := by
  intro records
  induction records with
  | nil =>
    intro limit count st _ _
    simp [readLoop]
  | cons record rest ih =>
    intro limit count st hlimit hcount
    rw [readLoop]
    by_cases hbr : limit ≠ 0 ∧ count ≥ limit
    · rw [if_pos hbr]
      have hcl : count = limit := Nat.le_antisymm hcount hbr.2
      simp only [List.length_cons]
      omega
    · rw [if_neg hbr]
      have hlt : count < limit := by
        rcases Nat.lt_or_ge count limit with h | h
        · exact h
        · exact absurd ⟨hlimit, h⟩ hbr
      simp only []
      rw [ih limit (count + 1) _ hlimit (by omega)]
      simp only [List.length_cons]
      omega

/-- Invariant of the probe state: discovery-order keys are distinct and
are exactly the keys with an accumulator. -/
def stInv (st : ProbeState) : Prop :=
  st.keys.Nodup ∧ ∀ k, k ∈ st.keys ↔ (dictGet st.probes k).isSome

theorem stInv_empty : stInv ⟨[], []⟩ := by
  constructor
  · exact List.nodup_nil
  · intro k
    simp

theorem stAdd_keys {st : ProbeState} (hinv : stInv st) (p : PyStr × Kind) :
    (stAdd st p).keys = if p.1 ∈ st.keys then st.keys else st.keys ++ [p.1] := by
  by_cases hmem : p.1 ∈ st.keys
  · have hsome : (dictGet st.probes p.1).isSome := (hinv.2 p.1).mp hmem
    simp [stAdd, hsome, hmem]
  · have hnone : ¬ (dictGet st.probes p.1).isSome := fun h => hmem ((hinv.2 p.1).mpr h)
    simp [stAdd, hnone, hmem]

theorem stAdd_inv {st : ProbeState} (hinv : stInv st) (p : PyStr × Kind) :
    stInv (stAdd st p) := by
  obtain ⟨hnodup, hdom⟩ := hinv
  by_cases hsome : (dictGet st.probes p.1).isSome
  · have hk : (stAdd st p).keys = st.keys := by
      simp [stAdd, hsome]
    constructor
    · rw [hk]; exact hnodup
    · intro k
      rw [hk]
      obtain ⟨l, hl⟩ := Option.isSome_iff_exists.mp hsome
      have hpr : (stAdd st p).probes = dictSet st.probes p.1 (if p.2 ∈ l then l else l ++ [p.2]) := by
        simp [stAdd, hsome, hl]
      rw [hpr]
      by_cases hkp : p.1 = k
      · subst hkp
        simp [dictGet_dictSet_self, hdom p.1, hsome]
      · rw [dictGet_dictSet_ne _ _ hkp]
        exact hdom k
  · have hmem : p.1 ∉ st.keys := fun h => hsome ((hdom p.1).mp h)
    have hnone : dictGet st.probes p.1 = none := by
      cases h : dictGet st.probes p.1 with
      | none => rfl
      | some l => exact absurd (by simp [h]) hsome
    have hk : (stAdd st p).keys = st.keys ++ [p.1] := by
      simp [stAdd, hsome]
    have hpr : (stAdd st p).probes
        = dictSet (dictSet st.probes p.1 []) p.1 [p.2] := by
      simp [stAdd, hsome, dictGet_dictSet_self]
    constructor
    · rw [hk]
      refine List.Nodup.append hnodup (by simp) ?_
      intro a ha hb
      simp only [List.mem_singleton] at hb
      subst hb
      exact hmem ha
    · intro k
      rw [hk, hpr]
      by_cases hkp : p.1 = k
      · subst hkp
        simp [dictGet_dictSet_self]
      · rw [dictGet_dictSet_ne _ _ hkp, dictGet_dictSet_ne _ _ hkp]
        simp only [List.mem_append, List.mem_singleton]
        constructor
        · rintro (h | h)
          · exact (hdom k).mp h
          · exact absurd h.symm hkp
        · intro h
          exact Or.inl ((hdom k).mpr h)

theorem foldl_stAdd_inv :
    ∀ (pairs : List (PyStr × Kind)) (st : ProbeState), stInv st →
      stInv (pairs.foldl stAdd st) := by
  intro pairs
  induction pairs with
  | nil => intro st h; exact h
  | cons p rest ih => intro st h; exact ih _ (stAdd_inv h p)

theorem foldl_stAdd_keys :
    ∀ (pairs : List (PyStr × Kind)) (st : ProbeState), stInv st →
      (pairs.foldl stAdd st).keys
        = (pairs.map Prod.fst).foldl
            (fun acc k => if k ∈ acc then acc else acc ++ [k]) st.keys := by
  intro pairs
  induction pairs with
  | nil => intro st _; rfl
  | cons p rest ih =>
    intro st hinv
    rw [List.foldl_cons, List.map_cons, List.foldl_cons, ih _ (stAdd_inv hinv p),
      stAdd_keys hinv]

theorem stAdd_eq_of_some {st : ProbeState} {p : PyStr × Kind} {l : List Kind}
    (hget : dictGet st.probes p.1 = some l) :
    stAdd st p = { keys := st.keys,
                   probes := dictSet st.probes p.1 (if p.2 ∈ l then l else l ++ [p.2]) } := by
  simp [stAdd, hget]

theorem stAdd_eq_of_none {st : ProbeState} {p : PyStr × Kind}
    (hget : dictGet st.probes p.1 = none) :
    stAdd st p = { keys := st.keys ++ [p.1],
                   probes := dictSet (dictSet st.probes p.1 []) p.1 [p.2] } := by
  simp [stAdd, hget, dictGet_dictSet_self]

theorem stAdd_probes_self (st : ProbeState) (p : PyStr × Kind) :
    dictGet (stAdd st p).probes p.1
      = some (let l := (dictGet st.probes p.1).getD [];
              if p.2 ∈ l then l else l ++ [p.2]) := by
  cases hget : dictGet st.probes p.1 with
  | some l =>
    rw [stAdd_eq_of_some hget]
    simp [dictGet_dictSet_self]
  | none =>
    rw [stAdd_eq_of_none hget]
    simp [dictGet_dictSet_self]

theorem stAdd_probes_ne (st : ProbeState) (p : PyStr × Kind) {k : PyStr}
    (h : p.1 ≠ k) : dictGet (stAdd st p).probes k = dictGet st.probes k := by
  cases hget : dictGet st.probes p.1 with
  | some l =>
    rw [stAdd_eq_of_some hget]
    exact dictGet_dictSet_ne _ _ h
  | none =>
    rw [stAdd_eq_of_none hget]
    show dictGet (dictSet (dictSet st.probes p.1 []) p.1 [p.2]) k = dictGet st.probes k
    rw [dictGet_dictSet_ne _ _ h, dictGet_dictSet_ne _ _ h]

theorem kindsAt_cons_self {k : PyStr} {p : PyStr × Kind} {rest : List (PyStr × Kind)}
    (h : p.1 = k) : kindsAt k (p :: rest) = p.2 :: kindsAt k rest := by
  simp [kindsAt, List.filter_cons, h]

theorem kindsAt_cons_ne {k : PyStr} {p : PyStr × Kind} {rest : List (PyStr × Kind)}
    (h : p.1 ≠ k) : kindsAt k (p :: rest) = kindsAt k rest := by
  simp [kindsAt, List.filter_cons, h]

theorem foldl_stAdd_probes :
    ∀ (pairs : List (PyStr × Kind)) (st : ProbeState) (k : PyStr),
      dictGet ((pairs.foldl stAdd st).probes) k
        = match dictGet st.probes k with
          | some l => some (dedupKinds l (kindsAt k pairs))
          | none =>
            if k ∈ pairs.map Prod.fst then some (dedupKinds [] (kindsAt k pairs))
            else none := by
  intro pairs
  induction pairs with
  | nil =>
    intro st k
    cases hget : dictGet st.probes k with
    | some l => simp [hget, dedupKinds, kindsAt]
    | none => simp [hget, kindsAt]
  | cons p rest ih =>
    intro st k
    rw [List.foldl_cons, ih (stAdd st p) k]
    by_cases hp : p.1 = k
    · subst hp
      rw [stAdd_probes_self, kindsAt_cons_self rfl]
      cases hget : dictGet st.probes p.1 with
      | some l =>
        simp only [hget, Option.getD_some]
        rfl
      | none =>
        simp only [hget, Option.getD_none, List.map_cons, List.mem_cons, true_or, if_true]
        rfl
    · rw [stAdd_probes_ne st p hp, kindsAt_cons_ne hp]
      cases hget : dictGet st.probes k with
      | some l => simp [hget]
      | none =>
        simp only [hget, List.map_cons, List.mem_cons]
        by_cases hmem : k ∈ rest.map Prod.fst
        · simp [hmem, hp]
        · simp [hmem, Ne.symm hp]

theorem mem_foldl_firstOcc {l : List PyStr} :
    ∀ {acc : List PyStr} {k : PyStr},
      (k ∈ l.foldl (fun acc k => if k ∈ acc then acc else acc ++ [k]) acc
        ↔ k ∈ acc ∨ k ∈ l) := by
  induction l with
  | nil => intro acc k; simp
  | cons x rest ih =>
    intro acc k
    rw [List.foldl_cons, ih]
    by_cases hx : x ∈ acc
    · simp only [hx, if_true, List.mem_cons]
      constructor
      · rintro (h | h)
        · exact Or.inl h
        · exact Or.inr (Or.inr h)
      · rintro (h | h | h)
        · exact Or.inl h
        · exact Or.inl (h ▸ hx)
        · exact Or.inr h
    · simp only [hx, if_false, List.mem_append, List.mem_singleton, List.mem_cons]
      tauto

theorem resolveField_name (probes : List (PyStr × List Kind)) (key : PyStr) :
    (resolveField probes key).name = key := by
  rw [resolveField]
  cases unique_storage_type ((dictGet probes key).getD []) with
  | none => rfl
  | some st =>
    by_cases h : st = pstr "unicode" <;> simp [h]

/-- C8: the Field List emitted by `read_fields` lists the probed full
keys exactly in the order of their first appearance during the scan, one
Field per distinct key. -/
theorem C8_read_fields_first_seen_order (records : List (PyDict Kind))
    (expandFlag : Bool) (limit : Nat) (collapse : Bool) :
    (read_fields records expandFlag limit collapse).1.map (fun f => f.name)
        = firstOccurrences ((streamPairs expandFlag collapse records limit 0).map Prod.fst)
    ∧ ((read_fields records expandFlag limit collapse).1.map (fun f => f.name)).Nodup := by
  have hstate := readLoop_state expandFlag collapse records limit 0 ⟨[], []⟩
  have hkeys := foldl_stAdd_keys (streamPairs expandFlag collapse records limit 0)
    ⟨[], []⟩ stInv_empty
  have hinv := foldl_stAdd_inv (streamPairs expandFlag collapse records limit 0)
    ⟨[], []⟩ stInv_empty
  have hnames : (read_fields records expandFlag limit collapse).1.map (fun f => f.name)
      = (readLoop expandFlag collapse records limit 0 ⟨[], []⟩).1.keys := by
    show ((readLoop expandFlag collapse records limit 0 ⟨[], []⟩).1.keys.map
        (resolveField (readLoop expandFlag collapse records limit 0 ⟨[], []⟩).1.probes)).map
          (fun f => f.name) = _
    rw [List.map_map]
    have hpt : ∀ key ∈ (readLoop expandFlag collapse records limit 0 ⟨[], []⟩).1.keys,
        ((fun f : Field => f.name) ∘
          resolveField (readLoop expandFlag collapse records limit 0 ⟨[], []⟩).1.probes)
            key = key := by
      intro key _
      exact resolveField_name _ key
    rw [List.map_congr_left hpt]
    exact List.map_id' _
  constructor
  · rw [hnames, hstate, hkeys]
    rfl
  · rw [hnames, hstate]
    exact hinv.1

/-- C4 is wrong on the code: with a positive limit N the loop breaks only
after `count >= limit` has been observed *after* probing, so it consumes
N+1 records when available.  Here: limit 1 consumes 2 records. -/
theorem C4_limit_one_consumes_two_records :
    (read_fields [[(pstr "a", PyVal.atom Kind.integer)],
                  [(pstr "b", PyVal.atom Kind.integer)]] false 1 false).2 = 2 := by
  show (readLoop false false [[(pstr "a", PyVal.atom Kind.integer)],
      [(pstr "b", PyVal.atom Kind.integer)]] 1 0 ⟨[], []⟩).2 = 2
  rw [readLoop_count false false _ 1 0 ⟨[], []⟩ (by decide) (by decide)]
  rfl

theorem kindName_eq_unicode_iff (k : Kind) :
    kindName k = pstr "unicode" ↔ k = Kind.textLike := by
  cases k <;> simp [kindName, pstr]

/-- C1 counterexample: a field probed with only integer-kind values
resolves to storage type "unknown" (with the kind as concrete storage
type), not to "integer": `read_fields` maps only the text-like kind
("unicode") to a storage type. -/
theorem C1_counterexample :
    ((read_fields [[(pstr "a", PyVal.atom Kind.integer)]] false 0 false).1.map
        (fun f => f.storage_type)) = [pstr "unknown"]
    ∧ pstr "unknown" ≠ pstr "integer" := by
  constructor
  · have hpr : probeRecord false [(pstr "a", PyVal.atom Kind.integer)] none ⟨[], []⟩
        = ⟨[pstr "a"], [(pstr "a", [Kind.integer])]⟩ := by
      simp [probeRecord, stAdd, fkey, dictGet, dictSet]
    have hloop : (readLoop false false [[(pstr "a", PyVal.atom Kind.integer)]] 0 0
        ⟨[], []⟩).1 = ⟨[pstr "a"], [(pstr "a", [Kind.integer])]⟩ := by
      rw [readLoop]
      simp [readLoop, hpr]
    show ((readLoop false false [[(pstr "a", PyVal.atom Kind.integer)]] 0 0
        ⟨[], []⟩).1.keys.map (resolveField (readLoop false false
          [[(pstr "a", PyVal.atom Kind.integer)]] 0 0 ⟨[], []⟩).1.probes)).map
            (fun f => f.storage_type) = [pstr "unknown"]
    rw [hloop]
    rfl
  · decide

/-- C1 amended: when exactly one non-null kind was observed for a field,
`read_fields` resolves its storage type to "string" if that kind is the
text-like one and to "unknown" otherwise, recording the kind's type name
as the field's concrete storage type in the latter case. -/
theorem C1_unique_kind_resolution (records : List (PyDict Kind)) (expandFlag : Bool)
    (limit : Nat) (collapse : Bool) (f : Field) (k : Kind)
    (hf : f ∈ (read_fields records expandFlag limit collapse).1)
    (hk : uniqueNonNullKind (observedKinds expandFlag collapse records limit f.name)
      = some k) :
    f.storage_type = (if k = Kind.textLike then pstr "string" else pstr "unknown")
    ∧ (k ≠ Kind.textLike → f.concrete_storage_type = some (kindName k)) := by
  have hstate := readLoop_state expandFlag collapse records limit 0 ⟨[], []⟩
  have hinv := foldl_stAdd_inv (streamPairs expandFlag collapse records limit 0)
    ⟨[], []⟩ stInv_empty
  have hf0 : f ∈ ((readLoop expandFlag collapse records limit 0 ⟨[], []⟩).1.keys.map
      (resolveField (readLoop expandFlag collapse records limit 0 ⟨[], []⟩).1.probes)) :=
    hf
  have hf' : f ∈ ((streamPairs expandFlag collapse records limit 0).foldl stAdd
      ⟨[], []⟩).keys.map (resolveField ((streamPairs expandFlag collapse records
        limit 0).foldl stAdd ⟨[], []⟩).probes) := by
    rw [hstate] at hf0
    exact hf0
  obtain ⟨key, hkeymem, hfeq⟩ := List.mem_map.mp hf'
  have hname : f.name = key := by
    rw [← hfeq]
    exact resolveField_name _ key
  have hsome : (dictGet ((streamPairs expandFlag collapse records limit 0).foldl stAdd
      ⟨[], []⟩).probes key).isSome := (hinv.2 key).mp hkeymem
  have hprobe := foldl_stAdd_probes (streamPairs expandFlag collapse records limit 0)
    ⟨[], []⟩ key
  have hgetnil : dictGet (ProbeState.probes ⟨[], []⟩) key = none := rfl
  rw [hgetnil] at hprobe
  have hmemp : key ∈ (streamPairs expandFlag collapse records limit 0).map Prod.fst := by
    by_contra hnm
    rw [if_neg hnm] at hprobe
    rw [hprobe] at hsome
    simp at hsome
  rw [if_pos hmemp] at hprobe
  have hobs : dictGet ((streamPairs expandFlag collapse records limit 0).foldl stAdd
      ⟨[], []⟩).probes key
        = some (observedKinds expandFlag collapse records limit key) := hprobe
  rw [hname] at hk
  have hust : unique_storage_type (observedKinds expandFlag collapse records limit key)
      = some (kindName k) := by
    rw [unique_storage_type, hk]
    rfl
  have hres : resolveField ((streamPairs expandFlag collapse records limit 0).foldl
      stAdd ⟨[], []⟩).probes key
        = (if kindName k = pstr "unicode"
           then { name := key, storage_type := pstr "string" }
           else { name := key, storage_type := pstr "unknown",
                  concrete_storage_type := some (kindName k) } : Field) := by
    rw [resolveField]
    simp only [hobs, Option.getD_some, hust]
  by_cases hkt : k = Kind.textLike
  · subst hkt
    rw [if_pos ((kindName_eq_unicode_iff Kind.textLike).mpr rfl)] at hres
    rw [← hfeq, hres]
    constructor
    · simp
    · intro h
      exact absurd rfl h
  · have hnu : kindName k ≠ pstr "unicode" := by
      intro h
      exact hkt ((kindName_eq_unicode_iff k).mp h)
    rw [if_neg hnu] at hres
    rw [← hfeq, hres]
    constructor
    · simp [hkt]
    · intro _
      rfl

/-- Witness for the amended C1: a single text-like-kind field resolves to
storage type "string". -/
theorem C1_unique_kind_resolution_witness :
    ({ name := pstr "a", storage_type := pstr "string" } : Field)
        ∈ (read_fields [[(pstr "a", PyVal.atom Kind.textLike)]] false 0 false).1
    ∧ uniqueNonNullKind (observedKinds false false
        [[(pstr "a", PyVal.atom Kind.textLike)]] 0
        (Field.name { name := pstr "a", storage_type := pstr "string" }))
      = some Kind.textLike
    ∧ Field.storage_type { name := pstr "a", storage_type := pstr "string" }
        = (if Kind.textLike = Kind.textLike then pstr "string" else pstr "unknown") := by
  have hpr : probeRecord false [(pstr "a", PyVal.atom Kind.textLike)] none ⟨[], []⟩
      = ⟨[pstr "a"], [(pstr "a", [Kind.textLike])]⟩ := by
    simp [probeRecord, stAdd, fkey, dictGet, dictSet]
  have hloop : (readLoop false false [[(pstr "a", PyVal.atom Kind.textLike)]] 0 0
      ⟨[], []⟩).1 = ⟨[pstr "a"], [(pstr "a", [Kind.textLike])]⟩ := by
    rw [readLoop]
    simp [readLoop, hpr]
  have hf : ({ name := pstr "a", storage_type := pstr "string" } : Field)
      ∈ (read_fields [[(pstr "a", PyVal.atom Kind.textLike)]] false 0 false).1 := by
    show _ ∈ ((readLoop false false [[(pstr "a", PyVal.atom Kind.textLike)]] 0 0
      ⟨[], []⟩).1.keys.map (resolveField (readLoop false false
        [[(pstr "a", PyVal.atom Kind.textLike)]] 0 0 ⟨[], []⟩).1.probes))
    rw [hloop]
    decide
  have hk : uniqueNonNullKind (observedKinds false false
      [[(pstr "a", PyVal.atom Kind.textLike)]] 0
      (Field.name { name := pstr "a", storage_type := pstr "string" }))
        = some Kind.textLike := by
    have hrp : recordPairs false [(pstr "a", PyVal.atom Kind.textLike)] none
        = [(pstr "a", Kind.textLike)] := by
      simp [recordPairs, fkey]
    simp [observedKinds, streamPairs, hrp, kindsAt, dedupKinds, uniqueNonNullKind]
  exact ⟨hf, hk,
    (C1_unique_kind_resolution [[(pstr "a", PyVal.atom Kind.textLike)]] false 0 false
      _ Kind.textLike hf hk).1⟩

end Schema

/-! ### The Field List Builder (fieldlist)

Model of `fieldlist` from src/brewery/ds/base.py.  A field description is
a Python string, tuple, dict or something else; the function builds a
keyword dict `d` and calls `Field(**d)`.  Failures modelled as `none`:
`obj[0]` on an empty tuple (IndexError), `obj["name"]` on a dict without
a name (KeyError), the `ValueError` branch for other shapes, the
(provably dead) default-table branch — whose body would crash on the
misspelled attribute `default_analytical_types` — and `Field(**d)` with
the unexpected keyword `adapter_storage_type` (TypeError). -/

section FieldListBuilder

/-- A field description passed to `fieldlist`: a name string, a tuple of
strings, a mapping (with only the keys the code reads), or any other
Python object. -/
inductive FieldDesc where
  | str (s : PyStr)
  | tup (elems : List PyStr)
  | dict (name : Option PyStr) (label : Option PyStr) (storage_type : Option PyStr)
      (analytical_type : Option PyStr) (adapter_storage_type : Option PyStr)
  | other
  deriving Repr, DecidableEq

/-- The dict `d` after the two initial assignments
`d["storage_type"] = "unknown"; d["analytical_type"] = "typeless"`. -/
def fieldlistInitDict : List (PyStr × PyStr) :=
  dictSet (dictSet [] (pstr "storage_type") (pstr "unknown"))
    (pstr "analytical_type") (pstr "typeless")

/-- The keyword dict built for one field description by the body of the
`fieldlist` loop. -/
def descDict : FieldDesc → Option (List (PyStr × PyStr))
  | FieldDesc.str s => some (dictSet fieldlistInitDict (pstr "name") s)
  | FieldDesc.tup [] => none
  | FieldDesc.tup (n :: rest) =>
    let d := dictSet fieldlistInitDict (pstr "name") n
    some (match rest with
      | [] => d
      | st :: rest2 =>
        let d := dictSet d (pstr "storage_type") st
        match rest2 with
        | [] => d
        | an :: _ => dictSet d (pstr "analytical_type") an)
  | FieldDesc.dict name label st an ad =>
    match name with
    | none => none
    | some nm =>
      let d := dictSet fieldlistInitDict (pstr "name") nm
      let d := match label with | some lb => dictSet d (pstr "label") lb | none => d
      let d := match st with | some s => dictSet d (pstr "storage_type") s | none => d
      let d := match an with | some x => dictSet d (pstr "analytical_type") x | none => d
      let d := match ad with
        | some x => dictSet d (pstr "adapter_storage_type") x
        | none => d
      some d
  | FieldDesc.other => none

/-- The tail of the loop body: the dead default-table branch (its body
would raise on the misspelled `Field.default_analytical_types`), then
`Field(**d)` with keyword-argument checking. -/
def fieldFromDict (d : List (PyStr × PyStr)) : Option Field :=
  if (dictGet d (pstr "analytical_type")).isNone then none
  else if (dictGet d (pstr "adapter_storage_type")).isSome then none
  else match dictGet d (pstr "name") with
  | none => none
  | some nm =>
    some { name := nm, label := dictGet d (pstr "label"),
           storage_type := (dictGet d (pstr "storage_type")).getD (pstr "unknown"),
           analytical_type := dictGet d (pstr "analytical_type") }

/-- `fieldlist(fields)` from src/brewery/ds/base.py: build one Field per
description, in order; any raised exception aborts the whole call. -/
def fieldlist : List FieldDesc → Option (List Field)
  | [] => some []
  | desc :: rest =>
    match (descDict desc).bind fieldFromDict with
    | none => none
    | some f => (fieldlist rest).map (fun fs => f :: fs)

/-- The shapes `fieldlist` accepts without raising. -/
def validDesc : FieldDesc → Bool
  | FieldDesc.str _ => true
  | FieldDesc.tup elems => !elems.isEmpty
  | FieldDesc.dict name _ _ _ ad => name.isSome && ad.isNone
  | FieldDesc.other => false

/-- The name a field description carries. -/
def descName : FieldDesc → PyStr
  | FieldDesc.str s => s
  | FieldDesc.tup elems => elems.headD []
  | FieldDesc.dict name _ _ _ _ => name.getD []
  | FieldDesc.other => []

/-- Whether a description explicitly gives an analytical type. -/
def descGivesAnalytical : FieldDesc → Bool
  | FieldDesc.tup elems => 3 ≤ elems.length
  | FieldDesc.dict _ _ _ an _ => an.isSome
  | _ => false

theorem fieldlist_step_ok (desc : FieldDesc) (h : validDesc desc = true) :
    ∃ f, (descDict desc).bind fieldFromDict = some f ∧ f.name = descName desc
      ∧ (descGivesAnalytical desc = false →
          f.analytical_type = some (pstr "typeless")) := by
  cases desc with
  | str s => exact ⟨_, rfl, rfl, fun _ => rfl⟩
  | tup elems =>
    cases elems with
    | nil => simp [validDesc] at h
    | cons n rest =>
      cases rest with
      | nil => exact ⟨_, rfl, rfl, fun _ => rfl⟩
      | cons st rest2 =>
        cases rest2 with
        | nil => exact ⟨_, rfl, rfl, fun _ => rfl⟩
        | cons an rest3 =>
          refine ⟨_, rfl, rfl, fun hno => ?_⟩
          simp [descGivesAnalytical] at hno
  | dict name label st an ad =>
    simp only [validDesc, Bool.and_eq_true, Option.isSome_iff_exists,
      Option.isNone_iff_eq_none] at h
    obtain ⟨⟨nm, hnm⟩, had⟩ := h
    subst hnm
    have had' : ad = none := by
      cases ad with
      | none => rfl
      | some x => simp [Option.isNone] at had
    subst had'
    cases label with
    | none =>
      cases st with
      | none =>
        cases an with
        | none => exact ⟨_, rfl, rfl, fun _ => rfl⟩
        | some x => exact ⟨_, rfl, rfl, fun hno => by simp [descGivesAnalytical] at hno⟩
      | some s =>
        cases an with
        | none => exact ⟨_, rfl, rfl, fun _ => rfl⟩
        | some x => exact ⟨_, rfl, rfl, fun hno => by simp [descGivesAnalytical] at hno⟩
    | some lb =>
      cases st with
      | none =>
        cases an with
        | none => exact ⟨_, rfl, rfl, fun _ => rfl⟩
        | some x => exact ⟨_, rfl, rfl, fun hno => by simp [descGivesAnalytical] at hno⟩
      | some s =>
        cases an with
        | none => exact ⟨_, rfl, rfl, fun _ => rfl⟩
        | some x => exact ⟨_, rfl, rfl, fun hno => by simp [descGivesAnalytical] at hno⟩
  | other => simp [validDesc] at h

theorem fieldlist_step_analytical (desc : FieldDesc) (f : Field)
    (h : (descDict desc).bind fieldFromDict = some f)
    (hno : descGivesAnalytical desc = false) :
    f.analytical_type = some (pstr "typeless") := by
  cases desc with
  | str s =>
    have hval : f = { name := s, label := none, storage_type := pstr "unknown",
                      analytical_type := some (pstr "typeless") } := by
      have h' := h
      rw [show (descDict (FieldDesc.str s)).bind fieldFromDict
        = some { name := s, label := none, storage_type := pstr "unknown",
                 analytical_type := some (pstr "typeless") } from rfl] at h'
      exact (Option.some.inj h').symm
    rw [hval]
  | tup elems =>
    cases elems with
    | nil => simp [descDict] at h
    | cons n rest =>
      cases rest with
      | nil =>
        rw [show (descDict (FieldDesc.tup [n])).bind fieldFromDict
          = some { name := n, label := none, storage_type := pstr "unknown",
                   analytical_type := some (pstr "typeless") } from rfl] at h
        rw [(Option.some.inj h).symm]
      | cons st rest2 =>
        cases rest2 with
        | nil =>
          rw [show (descDict (FieldDesc.tup [n, st])).bind fieldFromDict
            = some { name := n, label := none, storage_type := st,
                     analytical_type := some (pstr "typeless") } from rfl] at h
          rw [(Option.some.inj h).symm]
        | cons an rest3 => simp [descGivesAnalytical] at hno
  | dict name label st an ad =>
    cases name with
    | none => simp [descDict] at h
    | some nm =>
      have han : an = none := by
        cases an with
        | none => rfl
        | some x => simp [descGivesAnalytical] at hno
      subst han
      cases had : ad with
      | some x =>
        subst had
        cases label <;> cases st <;> simp [descDict, fieldFromDict] at h
      | none =>
        subst had
        cases label with
        | none =>
          cases st with
          | none =>
            rw [show (descDict (FieldDesc.dict (some nm) none none none none)).bind
              fieldFromDict = some { name := nm, label := none,
                                     storage_type := pstr "unknown",
                                     analytical_type := some (pstr "typeless") }
              from rfl] at h
            rw [(Option.some.inj h).symm]
          | some s =>
            rw [show (descDict (FieldDesc.dict (some nm) none (some s) none none)).bind
              fieldFromDict = some { name := nm, label := none, storage_type := s,
                                     analytical_type := some (pstr "typeless") }
              from rfl] at h
            rw [(Option.some.inj h).symm]
        | some lb =>
          cases st with
          | none =>
            rw [show (descDict (FieldDesc.dict (some nm) (some lb) none none none)).bind
              fieldFromDict = some { name := nm, label := some lb,
                                     storage_type := pstr "unknown",
                                     analytical_type := some (pstr "typeless") }
              from rfl] at h
            rw [(Option.some.inj h).symm]
          | some s =>
            rw [show (descDict (FieldDesc.dict (some nm) (some lb) (some s) none
              none)).bind fieldFromDict = some { name := nm, label := some lb,
                                                 storage_type := s,
                                                 analytical_type := some (pstr "typeless") }
              from rfl] at h
            rw [(Option.some.inj h).symm]
  | other => simp [descDict] at h

/-- C9: for accepted field descriptions, `fieldlist` succeeds with exactly
one Field per description, in input order (so duplicate names are kept). -/
theorem C9_fieldlist_preserves_order_count (descs : List FieldDesc)
    (hvalid : ∀ d ∈ descs, validDesc d = true) :
    ∃ fs, fieldlist descs = some fs ∧ fs.length = descs.length
      ∧ fs.map (fun f => f.name) = descs.map descName := by
  induction descs with
  | nil => exact ⟨[], rfl, rfl, rfl⟩
  | cons d rest ih =>
    obtain ⟨f, hf, hname, -⟩ := fieldlist_step_ok d (hvalid d (List.mem_cons_self _ _))
    obtain ⟨fs, hfs, hlen, hnames⟩ := ih (fun x hx => hvalid x (List.mem_cons_of_mem _ hx))
    refine ⟨f :: fs, ?_, by simp [hlen], by simp [hname, hnames]⟩
    rw [fieldlist, hf, hfs]
    rfl

/-- Witness for C9: two identical bare-name descriptions produce two
fields (duplicates are not removed), in order. -/
theorem C9_fieldlist_preserves_order_count_witness :
    (∀ d ∈ [FieldDesc.str (pstr "x"), FieldDesc.str (pstr "x")], validDesc d = true)
    ∧ ∃ fs, fieldlist [FieldDesc.str (pstr "x"), FieldDesc.str (pstr "x")] = some fs
        ∧ fs.length = ([FieldDesc.str (pstr "x"), FieldDesc.str (pstr "x")]).length
        ∧ fs.map (fun f => f.name)
            = ([FieldDesc.str (pstr "x"), FieldDesc.str (pstr "x")]).map descName := by
  refine ⟨by decide, ?_⟩
  exact C9_fieldlist_preserves_order_count
    [FieldDesc.str (pstr "x"), FieldDesc.str (pstr "x")] (by decide)

/-- C3 counterexample: the description ('x', 'integer') yields a field
whose analytical type is the literal "typeless", although the
storage→analytical default table maps "integer" to "discrete": the
pre-assignment `d["analytical_type"] = "typeless"` makes the table lookup
dead code. -/
theorem C3_counterexample :
    fieldlist [FieldDesc.tup [pstr "x", pstr "integer"]]
        = some [{ name := pstr "x", label := none, storage_type := pstr "integer",
                  analytical_type := some (pstr "typeless") }]
    ∧ dictGet default_analytical_type (pstr "integer") = some (pstr "discrete")
    ∧ pstr "typeless" ≠ pstr "discrete" :=
  ⟨rfl, rfl, by decide⟩

/-- C3 amended: for every accepted description that does not give an
analytical type explicitly, the resulting Field's analytical type is the
literal "typeless", for every storage type. -/
theorem C3_fieldlist_analytical_defaults_to_literal_typeless
    (descs : List FieldDesc) (fs : List Field) (h : fieldlist descs = some fs) :
    List.Forall₂ (fun d f => descGivesAnalytical d = false →
      f.analytical_type = some (pstr "typeless")) descs fs := by
  induction descs generalizing fs with
  | nil =>
    rw [fieldlist] at h
    rw [← Option.some.inj h]
    exact List.Forall₂.nil
  | cons d rest ih =>
    rw [fieldlist] at h
    cases hstep : (descDict d).bind fieldFromDict with
    | none =>
      rw [hstep] at h
      simp at h
    | some f =>
      rw [hstep] at h
      simp only [Option.map_eq_some'] at h
      obtain ⟨fs', hrest, hfs⟩ := h
      rw [← hfs]
      exact List.Forall₂.cons (fieldlist_step_analytical d f hstep) (ih fs' hrest)

/-- Witness for the amended C3 at the description ('x', 'integer'). -/
theorem C3_fieldlist_analytical_defaults_witness :
    fieldlist [FieldDesc.tup [pstr "x", pstr "integer"]]
        = some [{ name := pstr "x", label := none, storage_type := pstr "integer",
                  analytical_type := some (pstr "typeless") }]
    ∧ List.Forall₂ (fun (d : FieldDesc) (f : Field) => descGivesAnalytical d = false →
        f.analytical_type = some (pstr "typeless"))
        [FieldDesc.tup [pstr "x", pstr "integer"]]
        [{ name := pstr "x", label := none, storage_type := pstr "integer",
           analytical_type := some (pstr "typeless") }] :=
  ⟨rfl, C3_fieldlist_analytical_defaults_to_literal_typeless
    [FieldDesc.tup [pstr "x", pstr "integer"]]
    [{ name := pstr "x", label := none, storage_type := pstr "integer",
       analytical_type := some (pstr "typeless") }] rfl⟩

end FieldListBuilder

/-! ### The SQL adapter (src/brewery/ds/sql_streams.py)

`SQLDataset.fields` maps backend-native column types to generic
(storage, analytical) pairs through the ordered table
`_sql_to_brewery_types`, matched first-match-wins by
`issubclass(column.type.__class__, conv[0])`.  The native type system is
abstracted as a type `τ` together with the `issubclass` oracle.  The
column's native type object itself (assigned to
`field.concrete_storage_type`) is opaque to the model. -/

section SqlStreams

/-- The sqlalchemy type classes named in `_sql_to_brewery_types`. -/
inductive SqlTypeClass where
  | UnicodeText
  | Text
  | Unicode
  | String
  | Integer
  | Numeric
  | DateTime
  | Date
  | Time
  | Interval
  | Boolean
  | Binary
  deriving Repr, DecidableEq

/-- The ordered (sql type, storage type, analytical type) table. -/
def sql_to_brewery_types : List (SqlTypeClass × PyStr × PyStr) :=
  [(SqlTypeClass.UnicodeText, pstr "text", pstr "typeless"),
   (SqlTypeClass.Text, pstr "text", pstr "typeless"),
   (SqlTypeClass.Unicode, pstr "string", pstr "set"),
   (SqlTypeClass.String, pstr "string", pstr "set"),
   (SqlTypeClass.Integer, pstr "integer", pstr "discrete"),
   (SqlTypeClass.Numeric, pstr "float", pstr "range"),
   (SqlTypeClass.DateTime, pstr "date", pstr "typeless"),
   (SqlTypeClass.Date, pstr "date", pstr "typeless"),
   (SqlTypeClass.Time, pstr "unknown", pstr "typeless"),
   (SqlTypeClass.Interval, pstr "unknown", pstr "typeless"),
   (SqlTypeClass.Boolean, pstr "boolean", pstr "flag"),
   (SqlTypeClass.Binary, pstr "unknown", pstr "typeless")]

/-- Python truthiness of an optional string (None and "" are falsy). -/
def pyFalsyOptStr : Option PyStr → Bool
  | none => true
  | some s => s.isEmpty

/-- The per-column body of `SQLDataset.fields`: build a Field from the
column name, scan the table first-match-wins, then apply the two
fix-ups.  The guard `if not field.storage_type` assigns the misspelled
attribute `storaget_tpye`, so it never changes `storage_type`; the guard
`if not field.analytical_type` sets analytical type "unknown". -/
def sqlColumnField {τ : Type} (issub : τ → SqlTypeClass → Bool) (colType : τ)
    (colName : PyStr) : Field :=
  let field0 : Field := { name := colName }
  let field1 := match sql_to_brewery_types.find? (fun conv => issub colType conv.1) with
    | some conv => { field0 with storage_type := conv.2.1,
                                 analytical_type := some conv.2.2 }
    | none => field0
  let field2 := field1
  if pyFalsyOptStr field2.analytical_type then
    { field2 with analytical_type := some (pstr "unknown") }
  else field2

/-- `SQLDataset.fields`: one Field per table column. -/
def SQLDataset_fields {τ : Type} (issub : τ → SqlTypeClass → Bool)
    (columns : List (PyStr × τ)) : List Field :=
  columns.map (fun c => sqlColumnField issub c.2 c.1)

/-- C5 counterexample: a native type matching no table entry yields
analytical type "unknown", not "typeless" (the storage type is "unknown"
via the Field constructor default, and no error is raised). -/
theorem C5_counterexample :
    (sqlColumnField (fun (_ : Unit) (_ : SqlTypeClass) => false) () (pstr "c")).storage_type
        = pstr "unknown"
    ∧ (sqlColumnField (fun (_ : Unit) (_ : SqlTypeClass) => false) ()
        (pstr "c")).analytical_type = some (pstr "unknown")
    ∧ pstr "unknown" ≠ pstr "typeless" :=
  ⟨rfl, rfl, by decide⟩

/-- C5 amended: for every backend-native column type that matches no
entry of the ordered table, `SQLDataset.fields` assigns storage type
"unknown" and analytical type "unknown" (not "typeless"), and never
raises (the function is total). -/
theorem C5_unmatched_native_type_resolution {τ : Type}
    (issub : τ → SqlTypeClass → Bool) (colType : τ) (colName : PyStr)
    (hnone : ∀ conv ∈ sql_to_brewery_types, issub colType conv.1 = false) :
    (sqlColumnField issub colType colName).storage_type = pstr "unknown"
    ∧ (sqlColumnField issub colType colName).analytical_type
        = some (pstr "unknown") := by
  have hfind : sql_to_brewery_types.find? (fun conv => issub colType conv.1) = none := by
    rw [List.find?_eq_none]
    intro conv hconv
    simp [hnone conv hconv]
  rw [sqlColumnField]
  simp only [hfind]
  exact ⟨rfl, rfl⟩

/-- Witness for the amended C5 with a one-element native type system on
which the subclass oracle is constantly false. -/
theorem C5_unmatched_native_type_resolution_witness :
    (∀ conv ∈ sql_to_brewery_types,
      (fun (_ : Unit) (_ : SqlTypeClass) => false) () conv.1 = false)
    ∧ (sqlColumnField (fun (_ : Unit) (_ : SqlTypeClass) => false) ()
        (pstr "c")).storage_type = pstr "unknown"
    ∧ (sqlColumnField (fun (_ : Unit) (_ : SqlTypeClass) => false) ()
        (pstr "c")).analytical_type = some (pstr "unknown") := by
  refine ⟨fun conv _ => rfl, ?_, ?_⟩
  · exact (C5_unmatched_native_type_resolution
      (fun (_ : Unit) (_ : SqlTypeClass) => false) () (pstr "c")
      (fun conv _ => rfl)).1
  · exact (C5_unmatched_native_type_resolution
      (fun (_ : Unit) (_ : SqlTypeClass) => false) () (pstr "c")
      (fun conv _ => rfl)).2

/-- An object passed to `SQLDataTarget.append`: a dict record or a row. -/
inductive AppendObj (α : Type) where
  | record (r : PyDict α)
  | row (vals : List (PyVal α))

/-- `SQLDataTarget.append`: a dict is passed through; anything else is
zipped with the field names into a record
(`record = dict(zip(self.field_names, obj))`).  The model returns the
record handed to `insert_command.execute`. -/
def SQLDataTarget_append {α : Type} (field_names : List PyStr) (obj : AppendObj α) :
    PyDict α :=
  match obj with
  | AppendObj.record r => r
  | AppendObj.row vals =>
    (List.zip field_names vals).foldl (fun d kv => dictSet d kv.1 kv.2) []

theorem zip_eq_zip_take_right {γ δ : Type} :
    ∀ (l1 : List γ) (l2 : List δ), List.zip l1 l2 = List.zip l1 (l2.take l1.length) := by
  intro l1
  induction l1 with
  | nil => intro l2; rfl
  | cons x rest ih =>
    intro l2
    cases l2 with
    | nil => rfl
    | cons y ys =>
      simp only [List.zip_cons_cons, List.length_cons, List.take_succ_cons]
      rw [← ih ys]

/-- C6 counterexample: a row with more values than fields is accepted;
the extra values are silently dropped by `zip`, and no schema-mismatch
error is raised. -/
theorem C6_counterexample :
    SQLDataTarget_append [pstr "a"]
        (AppendObj.row [PyVal.atom (1 : Nat), PyVal.atom 2])
      = [(pstr "a", PyVal.atom 1)] := rfl

/-- C6 amended: `append` never fails on an over-long row; it builds the
same record as for the row truncated to the number of fields — values
beyond the field count are silently discarded. -/
theorem C6_append_truncates_long_rows {α : Type} (field_names : List PyStr)
    (vals : List (PyVal α)) :
    SQLDataTarget_append field_names (AppendObj.row vals)
      = SQLDataTarget_append field_names
          (AppendObj.row (vals.take field_names.length)) := by
  rw [SQLDataTarget_append, SQLDataTarget_append, ← zip_eq_zip_take_right]

end SqlStreams

end Brewery
